import Mathlib

/-!
# Verification of the aiohttp HTTP protocol module (`aiohttp/protocol.py`)

A shallow embedding of the data model and operations of `aiohttp/protocol.py`:
the header/status-line parsers (`HttpParser.parse_headers`,
`HttpRequestParser.parse_message`), the incremental body parser
(`HttpPayloadParser.__init__` / `feed_data`), the outbound payload writer
(`PayloadWriter.write`, `write_eof`, `set_transport`, `drain`), and the
`HttpMessage` header/keep-alive logic (`add_header`, `keep_alive`,
`_add_default_headers`).

Byte strings are modelled as `List Nat` (one `Nat` per byte); Python `str`
values on the `HttpMessage` side are modelled as Lean `String`.  Python
exceptions are modelled with `Except` and an explicit error type.  The
payload sink (`self.payload`, an external collaborator) is modelled by the
list of events delivered to it (`feed_data` / `feed_eof` / `set_exception`).
-/

namespace AiohttpProtocol

/-- Python exception kinds raised by the embedded code paths. -/
inductive PyErr where
  | indexError
  | valueError
  | assertionError
  | attributeError
  | lineTooLong
  | invalidHeader (line : List Nat)
  | badStatusLine
  | transferEncodingError (arg : List Nat)
deriving DecidableEq, Repr

/-- ASCII bytes of a Lean string (all source-relevant strings are ASCII). -/
def strB (s : String) : List Nat := s.toList.map Char.toNat

/-! ## Generic byte helpers mirroring Python `bytes` / `str` primitives -/

/-- `bytes.find(bytes([x, y]))`: index of the first occurrence of the two-byte
sequence `[x, y]`, `none` when absent (Python returns `-1`). -/
def findPair (x y : Nat) : List Nat → Option Nat
  | [] => none
  | [_] => none
  | a :: b :: rest =>
    if a = x ∧ b = y then some 0 else (findPair x y (b :: rest)).map (· + 1)

/-- `bytes.find(bytes([t]))`: index of the first occurrence of byte `t`. -/
def findByte (t : Nat) : List Nat → Option Nat
  | [] => none
  | a :: rest => if a = t then some 0 else (findByte t rest).map (· + 1)

/-- Strip the given byte set from the left end (half of Python `strip`). -/
def lstripBy (p : Nat → Bool) : List Nat → List Nat
  | [] => []
  | a :: rest => if p a then lstripBy p rest else a :: rest

/-- Python `bytes.strip(set)`: remove the byte set from both ends. -/
def stripBy (p : Nat → Bool) (l : List Nat) : List Nat :=
  ((lstripBy p (l.reverse)).reverse) |> lstripBy p

/-- Default Python `bytes.strip()` whitespace set: `b' \t\n\r\x0b\x0c'`. -/
def isPyWs (b : Nat) : Bool := b = 32 ∨ b = 9 ∨ b = 10 ∨ b = 13 ∨ b = 11 ∨ b = 12

/-- ASCII `bytes.upper()`. -/
def bupper (l : List Nat) : List Nat :=
  l.map fun b => if 97 ≤ b ∧ b ≤ 122 then b - 32 else b

/-- ASCII `bytes.lower()` / `str.lower()` on bytes. -/
def blower (l : List Nat) : List Nat :=
  l.map fun b => if 65 ≤ b ∧ b ≤ 90 then b + 32 else b

/-- Value of an ASCII hex digit, `none` for any other byte. -/
def hexDigitVal (b : Nat) : Option Nat :=
  if 48 ≤ b ∧ b ≤ 57 then some (b - 48)
  else if 97 ≤ b ∧ b ≤ 102 then some (b - 87)
  else if 65 ≤ b ∧ b ≤ 70 then some (b - 55)
  else none

def isHexDigitByte (b : Nat) : Bool := (hexDigitVal b).isSome

/-- Model of Python `int(s, 16)` on a byte string.  The model accepts exactly
nonempty runs of hex digits; CPython additionally tolerates surrounding
whitespace, a sign, an `0x` prefix and `_` separators, none of which occur in
chunk-size lines produced by a conforming peer, and all other strings raise
`ValueError` there as here. -/
def pyIntHex (s : List Nat) : Option Nat :=
  if s = [] then none
  else s.foldl (fun acc b => acc.bind fun a => (hexDigitVal b).map fun d => a * 16 + d)
    (some 0)

/-- `decDigits l`: every byte is an ASCII decimal digit. -/
def decDigits (l : List Nat) : Bool := l.all fun b => 48 ≤ b ∧ b ≤ 57

/-- Numeric value of a decimal digit byte string (no validity check). -/
def decVal (l : List Nat) : Nat := l.foldl (fun a b => a * 10 + (b - 48)) 0

/-- Model of Python `int(s)` on a byte/char string, restricted to nonempty
runs of decimal digits (CPython also accepts whitespace, sign and `_`
separators; those never appear in the inputs of interest and every other
string raises `ValueError` there as here). -/
def pyIntDec (l : List Nat) : Option Nat :=
  if l ≠ [] ∧ decDigits l then some (decVal l) else none

/-- Decimal digit bytes of `n` (the bytes of Python `str(n)` for `n : Nat`). -/
def natDecBytes (n : Nat) : List Nat :=
  if n < 10 then [48 + n]
  else natDecBytes (n / 10) ++ [48 + n % 10]
decreasing_by exact Nat.div_lt_self (by omega) (by omega)

/-- Hex digit byte (lowercase), for Python `'%x' % n` formatting. -/
def hexDigitByte (d : Nat) : Nat := if d < 10 then 48 + d else 87 + d

/-- Bytes of Python `'%x' % n` for positive `n` (recursion helper). -/
def natHexBytesAux (n : Nat) : List Nat :=
  if n < 16 then [hexDigitByte n]
  else natHexBytesAux (n / 16) ++ [hexDigitByte (n % 16)]
decreasing_by exact Nat.div_lt_self (by omega) (by omega)

/-- Bytes of Python `('%x' % n)` (lowercase hex, `0 ↦ "0"`). -/
def natHexBytes (n : Nat) : List Nat := natHexBytesAux n

/-! ## PayloadWriter: `write` / `write_eof` payload truncation (lines 535-593)

`PayloadWriter.write` first applies optional compression, then the
content-length truncation, then optional chunk framing, then buffers/writes.
The claims C2 and C6 concern the uncompressed paths; the models below embed
the uncompressed code paths (`self._compress is None`), which is the mode the
claims quantify over.  The *payload* bytes of a call are the (truncated)
chunk contents, separate from the chunk-framing metadata added afterwards. -/

/-- Lines 547-555 of `PayloadWriter.write`: the content-length truncation.
Given the current `self.length` and the chunk, returns the new `self.length`
and the chunk actually forwarded (the emitted payload of this call). -/
def pyWriteTrunc (length : Option Nat) (c : List Nat) : Option Nat × List Nat :=
  match length with
  | none => (none, c)
  | some L =>
    if L ≥ c.length then (some (L - c.length), c)
    else (some 0, c.take L)

/-- Lines 557-559 of `PayloadWriter.write`: optional chunk framing
`<hex-size>\r\n<data>\r\n` applied to a (already truncated) nonempty chunk. -/
def chunkFrame (c : List Nat) : List Nat :=
  natHexBytes c.length ++ [13, 10] ++ c ++ [13, 10]

/-- `PayloadWriter.write_eof(chunk)` without compression (lines 580-588):
the bytes appended to the output buffer.  Note line 581-583 frames a
nonempty chunk *and already appends* `b'\r\n0\r\n\r\n'`, after which line
585-586 unconditionally appends another `b'0\r\n\r\n'` when chunked. -/
def writeEofWire (chunked : Bool) (c : List Nat) : List Nat :=
  let c1 := if c ≠ [] ∧ chunked then
      natHexBytes c.length ++ [13, 10] ++ c ++ [13, 10, 48, 13, 10, 13, 10]
    else c
  if chunked then c1 ++ [48, 13, 10, 13, 10] else c1

/-- An abstract call trace against one `PayloadWriter`: a sequence of
`write(chunk)` and `write_eof(chunk)` calls. -/
inductive WOp where
  | write (c : List Nat)
  | writeEof (c : List Nat)
deriving DecidableEq, Repr

/-- Cumulative *payload* bytes emitted by a sequence of `write`/`write_eof`
calls on an uncompressed writer whose `self.length` starts at `length`.
`write` applies the truncation of lines 547-555 and updates `self.length`;
`write_eof` (lines 570-593) never consults `self.length`, so its chunk
is emitted in full. -/
def emittedPayload : Option Nat → List WOp → List Nat
  | _, [] => []
  | len, .write c :: rest =>
    let (len', p) := pyWriteTrunc len c
    p ++ emittedPayload len' rest
  | len, .writeEof c :: rest => c ++ emittedPayload len rest

/-! ## HttpMessage (lines 610-754): header bookkeeping and keep-alive

`HttpMessage` state is modelled by the fields its methods read and write.
Python `str` values are Lean `String`s; `istr` (case-insensitive string)
comparison is `ciEq`; the outbound `CIMultiDict` `self.headers` is an ordered
association list with case-insensitive lookup. -/

/-- Case-insensitive string equality (multidict `istr` comparison). -/
def ciEq (a b : String) : Bool := a.toList.map Char.toLower = b.toList.map Char.toLower

/-- `str.lower()` (ASCII; all header values of interest are ASCII). -/
def lowerStr (s : String) : String := String.mk (s.toList.map Char.toLower)

/-- Python `needle in hay` substring test on `str`. -/
def isSubstr (needle hay : String) : Bool := decide (needle.toList <:+: hay.toList)

def isPyWsChar (c : Char) : Bool := isPyWs c.toNat

def lstripCh : List Char → List Char
  | [] => []
  | a :: rest => if isPyWsChar a then lstripCh rest else a :: rest

/-- Python `str.strip()` (ASCII whitespace; unicode spaces do not occur). -/
def pyStripStr (s : String) : String :=
  String.mk (lstripCh ((lstripCh s.toList.reverse).reverse))

/-- First value stored under a case-insensitively equal key
(`CIMultiDict.get`). -/
def ciGetStr (hs : List (String × String)) (k : String) : Option String :=
  match hs.find? fun p => ciEq p.1 k with
  | some p => some p.2
  | none => none

/-- `CIMultiDict.__setitem__`: drop existing entries under the key and store
the new pair. -/
def setItemCI (hs : List (String × String)) (k v : String) : List (String × String) :=
  (hs.filter fun p => ¬ ciEq p.1 k) ++ [(k, v)]

/-- Tuple comparison `version < other` on `HttpVersion` namedtuples
(lexicographic). -/
def versionLt (a b : Nat × Nat) : Bool := a.1 < b.1 ∨ (a.1 = b.1 ∧ a.2 < b.2)

/-- Tuple comparison `version <= other` (lexicographic). -/
def versionLe (a b : Nat × Nat) : Bool := versionLt a b ∨ a = b

/-- `HttpVersion10 = HttpVersion(1, 0)`. -/
def httpVersion10 : Nat × Nat := (1, 0)

/-- The `HttpMessage` fields read/written by `add_header`, `keep_alive`,
`force_close` and `_add_default_headers`. -/
structure HMsg where
  version : Nat × Nat
  closing : Bool
  keepalive : Option Bool
  headers : List (String × String)
  upgrade : Bool
  websocket : Bool
  hasChunkedHdr : Bool
  length : Option Nat
  headersSent : Bool
deriving DecidableEq, Repr

/-- `HttpMessage.__init__` (lines 622-630) together with the class-level flag
defaults (lines 618-620). -/
def mkHttpMessage (version : Nat × Nat) (close : Bool) : HMsg :=
  { version := version, closing := close, keepalive := none, headers := [],
    upgrade := false, websocket := false, hasChunkedHdr := false,
    length := none, headersSent := false }

/-- `Request.__init__` (lines 810-820): HTTP 0.9 requests force `close=True`
before delegating to `HttpMessage.__init__`. -/
def mkRequest (version : Nat × Nat) (close : Bool := false) : HMsg :=
  mkHttpMessage version (if versionLt version httpVersion10 then true else close)

/-- `HttpMessage.keep_alive` (lines 653-666). -/
def keepAliveFn (m : HMsg) : Bool :=
  match m.keepalive with
  | none =>
    if versionLt m.version httpVersion10 then false
    else if m.version = httpVersion10 then
      ciGetStr m.headers "Connection" = some "keep-alive"
    else ! m.closing
  | some b => b

/-- `HOP_HEADERS` of both concrete subclasses `Request` and `Response` is the
empty tuple (lines 765 and 808). -/
def hopHeaders : List String := []

/-- Lines 689-710 of `HttpMessage.add_header`: the `Transfer-Encoding`,
`Connection`, `Upgrade` and hop-header handling, after the `Content-Length`
`if` has run (`value` is already stripped). -/
def addHeaderRest (m : HMsg) (name value : String) : Except PyErr HMsg :=
  let m := if ciEq name "Transfer-Encoding" then
      { m with hasChunkedHdr := pyStripStr (lowerStr value) = "chunked" }
    else m
  if ciEq name "Connection" then
    let val := lowerStr value
    if isSubstr "upgrade" val then .ok { m with upgrade := true }
    else if isSubstr "close" val then .ok { m with keepalive := some false }
    else if isSubstr "keep-alive" val then .ok { m with keepalive := some true }
    else .ok m
  else if ciEq name "Upgrade" then
    let m := if isSubstr "websocket" (lowerStr value) then
        { m with websocket := true } else m
    .ok { m with headers := setItemCI m.headers name value }
  else if hopHeaders.any fun h => ciEq h name then .ok m
  else .ok { m with headers := m.headers ++ [(name, value)] }

/-- `HttpMessage.add_header` (lines 671-710).  The `assert not
self.headers_sent` guard is the `assertionError` case; the `isinstance`/ASCII
asserts are static under the `String` typing of the model.  `int(value)` for
`Content-Length` raises `ValueError` on non-numeric values; the rest of the
method is `addHeaderRest`. -/
def addHeader (m : HMsg) (name value : String) : Except PyErr HMsg :=
  if m.headersSent then .error .assertionError
  else
    let value := pyStripStr value
    if ciEq name "Content-Length" then
      match pyIntDec (strB value) with
      | some n => addHeaderRest { m with length := some n } name value
      | none => .error .valueError
    else addHeaderRest m name value

/-- `HttpMessage.add_headers` (lines 712-715): fold `add_header` over pairs. -/
def addHeaders (m : HMsg) : List (String × String) → Except PyErr HMsg
  | [] => .ok m
  | (n, v) :: rest =>
    match addHeader m n v with
    | .ok m' => addHeaders m' rest
    | .error e => .error e

/-- `HttpMessage._add_default_headers` (lines 741-754): compute the outbound
`Connection` header from the upgrade/keepalive/closing flags and the
version. -/
def addDefaultHeaders (m : HMsg) : HMsg :=
  let connection : Option String :=
    if m.upgrade then some "Upgrade"
    else if (match m.keepalive with | none => ! m.closing | some b => b) then
      if m.version = (1, 0) then some "keep-alive" else none
    else
      if m.version = (1, 1) then some "close" else none
  match connection with
  | some c => { m with headers := setItemCI m.headers "Connection" c }
  | none => m

/-- Does `add_header(name, value)` set the explicit keepalive flag to `True`?
Mirrors the `Connection` branch of lines 692-701: the value must contain
`keep-alive` and contain neither `upgrade` nor `close` (earlier `elif` arms
win). -/
def setsKeepaliveTrue (name value : String) : Bool :=
  let val := lowerStr (pyStripStr value)
  ciEq name "Connection" ∧ ¬ isSubstr "upgrade" val ∧ ¬ isSubstr "close" val ∧
    isSubstr "keep-alive" val

/-! ## HttpPayloadParser.__init__ (lines 273-315): framing-mode selection

The constructor picks the framing mode and may immediately feed EOF to the
sink.  The compression wrapper (line 287-288) only re-routes the sink and is
orthogonal to the mode selection; the model instantiates `compression=None`
as the claims do. -/

/-- `PARSE_NONE` / `PARSE_LENGTH` / `PARSE_CHUNKED` / `PARSE_UNTIL_EOF`
(lines 39-42). -/
inductive PType where
  | parseNone
  | parseLength
  | parseChunked
  | parseUntilEof
deriving DecidableEq, Repr

/-- `ChunkState` (lines 45-49). -/
inductive ChunkPhase where
  | parseChunkedSize
  | parseChunkedChunk
  | parseChunkedChunkEof
  | parseChunkedTrailers
deriving DecidableEq, Repr

/-- Events delivered to the payload sink: `payload.feed_data(b, len(b))`,
`payload.feed_eof()`, `payload.set_exception(TransferEncodingError(e))`. -/
inductive SinkEvent where
  | data (b : List Nat)
  | eof
  | setExc (e : List Nat)
deriving DecidableEq, Repr

/-- The mutable `HttpPayloadParser` fields used by `feed_data` (lines
279-284). -/
structure PayState where
  type : PType
  length : Nat
  chunk : ChunkPhase
  chunkSize : Nat
  chunkTail : List Nat
  done : Bool
deriving DecidableEq, Repr

/-- Result of `HttpPayloadParser.__init__`: the constructed state plus the
sink events emitted during construction. -/
structure InitRes where
  st : PayState
  events : List SinkEvent
deriving DecidableEq, Repr

/-- `HttpPayloadParser.__init__` (lines 273-315) with `compression=None`.
`method` is `Option String` (`None` or the request method). -/
def payloadInit (length : Option Nat) (chunked : Bool) (code : Option Nat)
    (method : Option String) (readall : Bool) (responseWithBody : Bool) :
    InitRes :=
  let st0 : PayState :=
    { type := .parseNone, length := 0, chunk := .parseChunkedSize,
      chunkSize := 0, chunkTail := [], done := false }
  if ¬ responseWithBody then
    { st := { st0 with type := .parseNone, done := true }, events := [.eof] }
  else if chunked then
    { st := { st0 with type := .parseChunked }, events := [] }
  else match length with
    | some n =>
      if n = 0 then
        { st := { st0 with type := .parseLength, length := 0, done := true },
          events := [.eof] }
      else
        { st := { st0 with type := .parseLength, length := n }, events := [] }
    | none =>
      if readall ∧ code ≠ some 204 then
        { st := { st0 with type := .parseUntilEof }, events := [] }
      else if method = some "PUT" ∨ method = some "POST" then
        { st := { st0 with type := .parseNone, done := true }, events := [.eof] }
      else
        { st := st0, events := [] }

/-! ## PayloadWriter.set_transport / drain (lines 453-607): the waiter typo

`set_transport` (lines 478-489) flushes the pending buffer to the freshly
attached transport and is supposed to unblock a parked `drain`.  Line 487
reads `self._drain_maiter`, an attribute that no code path ever assigns
(`__init__` sets `self._drain_waiter`, line 470; `drain` sets
`self._drain_waiter`, line 605).  Python attribute access on a name that was
never assigned raises `AttributeError`, so the instance attribute store is
modelled explicitly: `drainMaiter = none` means the attribute `_drain_maiter`
is absent (as it is on every reachable instance). -/

/-- The `PayloadWriter` fields touched by `buffer_data`, `drain` (transport
absent) and `set_transport`.  A transport is identified by a `Nat`; a parked
waiter by the `Nat` id of its future. -/
structure PWState where
  transport : Option Nat
  buffer : List (List Nat)
  bufferSize : Nat
  outputLength : Nat
  drainWaiter : Option Nat
  drainMaiter : Option (Option Nat)
deriving DecidableEq, Repr

/-- `PayloadWriter.__init__` (lines 455-476) on a stream whose transport is
not yet available (`self._stream.available` false): the writer registers an
acquire callback and starts with no transport. -/
def mkPayloadWriter : PWState :=
  { transport := none, buffer := [], bufferSize := 0, outputLength := 0,
    drainWaiter := none, drainMaiter := none }

/-- `PayloadWriter.buffer_data` (lines 513-518). -/
def bufferData (st : PWState) (c : List Nat) : PWState :=
  if c ≠ [] then
    { st with bufferSize := st.bufferSize + c.length,
              outputLength := st.outputLength + c.length,
              buffer := st.buffer ++ [c] }
  else st

/-- The transport-absent branch of `PayloadWriter.drain` (lines 602-607):
with buffered data and no waiter yet, a fresh future (id `freshId`) is
created and parked on.  Returns the new state and whether the call parked. -/
def drainPark (st : PWState) (freshId : Nat) : PWState × Bool :=
  match st.transport with
  | some _ => (st, false)
  | none =>
    if st.buffer ≠ [] then
      match st.drainWaiter with
      | none => ({ st with drainWaiter := some freshId }, true)
      | some _ => (st, true)
    else (st, false)

/-- `PayloadWriter.set_transport` (lines 478-489).  Returns the new state and
the list of `transport.write` payloads, or the Python exception.  Line 487
(`waiter, self._drain_maiter = self._drain_maiter, None`) first evaluates the
right-hand side, reading `self._drain_maiter`: on every reachable instance
that attribute does not exist and the read raises `AttributeError`. -/
def setTransport (st : PWState) (t : Nat) :
    Except PyErr (PWState × List (Nat × List Nat)) :=
  let st := { st with transport := some t }
  let chunk := st.buffer.flatten
  let (st, writes) :=
    if chunk ≠ [] then ({ st with buffer := [] }, [(t, chunk)])
    else (st, ([] : List (Nat × List Nat)))
  match st.drainWaiter with
  | some _ =>
    match st.drainMaiter with
    | none => .error .attributeError
    | some _ =>
      -- unreachable on real instances: were the attribute present, the code
      -- would complete the future read from `_drain_maiter`
      .ok ({ st with drainMaiter := some none, drainWaiter := st.drainWaiter },
           writes)
  | none => .ok (st, writes)

/-! ## HttpParser.parse_headers (lines 89-180)

`lines` is the array `[status_line, header_1, …, empty_terminator]` of
CRLF-stripped byte lines.  Python list indexing and `line[0]` on empty bytes
both raise `IndexError`.  The `CIMultiDict` and the `raw_headers` list hold
the same `(upper-cased name, value)` pairs in insertion order, so one pair
list models both. -/

/-- The byte set of `HDRRE` (line 30):
`[\x00-\x1F\x7F()<>@,;:\[\]={} \t\\\"]`. -/
def hdrBadByte (b : Nat) : Bool :=
  b ≤ 31 ∨ b = 127 ∨
  b = 40 ∨ b = 41 ∨ b = 60 ∨ b = 62 ∨ b = 64 ∨ b = 44 ∨ b = 59 ∨ b = 58 ∨
  b = 91 ∨ b = 93 ∨ b = 61 ∨ b = 123 ∨ b = 125 ∨ b = 32 ∨ b = 9 ∨
  b = 92 ∨ b = 34

/-- `line.split(b':', 1)`: `none` (Python `ValueError` on unpack) when no
colon occurs. -/
def splitColonOnce (l : List Nat) : Option (List Nat × List Nat) :=
  match findByte 58 l with
  | none => none
  | some i => some (l.take i, l.drop (i + 1))

/-- Substring test on byte strings (Python `needle in hay`). -/
def isSubB (needle hay : List Nat) : Bool := decide (needle <:+: hay)

/-- The continuation-line loop of `parse_headers` (lines 121-136): collect
lines into `parts` while they start with SP/HT.  Arguments: accumulated
`header_length`, collected parts, the current continuation line, the
remaining lines.  Returns `(parts, next line, remaining lines)`.
`lines[lines_idx]` past the end raises `IndexError`, and so does the
unguarded `line[0]` (line 135) when the fetched line is empty. -/
def contLoop (maxFS : Nat) : Nat → List (List Nat) → List Nat → List (List Nat) →
    Except PyErr (List (List Nat) × List Nat × List (List Nat))
  | hlen, parts, line, rest =>
    if hlen + line.length > maxFS then .error .lineTooLong
    else
      match rest with
      | [] => .error .indexError
      | nl :: rest' =>
        match nl with
        | [] => .error .indexError
        | c :: _ =>
          if c = 32 ∨ c = 9 then
            contLoop maxFS (hlen + line.length) (parts ++ [line]) nl rest'
          else .ok (parts ++ [line], nl, rest')

/-- `contLoop` consumes at least one of the remaining lines. -/
theorem contLoop_lt (maxFS : Nat) :
    ∀ (rest : List (List Nat)) (hlen : Nat) (parts : List (List Nat))
      (line : List Nat) (parts' : List (List Nat)) (nl : List Nat)
      (rest' : List (List Nat)),
      contLoop maxFS hlen parts line rest = .ok (parts', nl, rest') →
      rest'.length < rest.length := by
  intro rest
  induction rest with
  | nil =>
    intro hlen parts line parts' nl rest' h
    unfold contLoop at h
    split at h
    · simp at h
    · simp at h
  | cons x xs ih =>
    intro hlen parts line parts' nl rest' h
    unfold contLoop at h
    split at h
    · simp at h
    · cases x with
      | nil => simp at h
      | cons c cs =>
        simp only at h
        split at h
        · have := ih _ _ _ _ _ _ h
          simp only [List.length_cons]
          omega
        · simp only [Except.ok.injEq, Prod.mk.injEq] at h
          obtain ⟨-, -, rfl⟩ := h
          simp

/-- The main header loop of `parse_headers` (lines 101-150).  `line` is the
current line, `rest` the lines after it, `acc` the pairs parsed so far. -/
def parseHdrLoop (maxFS : Nat) (line : List Nat) (rest : List (List Nat))
    (acc : List (List Nat × List Nat)) :
    Except PyErr (List (List Nat × List Nat)) :=
  if line = [] then .ok acc
  else
    let hlen := line.length
    match splitColonOnce line with
    | none => .error (.invalidHeader line)
    | some (bn, bv) =>
      let bname := bupper (stripBy (fun b => b = 32 ∨ b = 9) bn)
      if bname.any hdrBadByte then .error (.invalidHeader bname)
      else
        match rest with
        | [] => .error .indexError
        | nline :: rest' =>
          if nline ≠ [] ∧ (nline.head? = some 32 ∨ nline.head? = some 9) then
            match hcont : contLoop maxFS hlen [bv] nline rest' with
            | .error e => .error e
            | .ok (parts, nl, rest'') =>
              let bvalue := stripBy isPyWs (List.intercalate [13, 10] parts)
              parseHdrLoop maxFS nl rest'' (acc ++ [(bname, bvalue)])
          else
            if hlen > maxFS then .error .lineTooLong
            else
              let bvalue := stripBy isPyWs bv
              parseHdrLoop maxFS nline rest' (acc ++ [(bname, bvalue)])
termination_by rest.length
decreasing_by
  · have hlt := contLoop_lt _ _ _ _ _ _ _ _ hcont
    simp only [List.length_cons]
    omega
  · simp

/-- Case-insensitive first lookup in the parsed header pair list
(`CIMultiDict.get` on `istr` keys). -/
def ciGetBytes (hs : List (List Nat × List Nat)) (k : List Nat) :
    Option (List Nat) :=
  match hs.find? fun p => blower p.1 = blower k with
  | some p => some p.2
  | none => none

/-- The result record of `parse_headers` (line 180); `raw_headers` coincides
with `headers` in this model (same pairs, same order). -/
structure ParsedHeaders where
  headers : List (List Nat × List Nat)
  closeConn : Option Bool
  encoding : Option (List Nat)
  upgrade : Bool
  chunked : Bool
deriving DecidableEq, Repr

/-- `HttpParser.parse_headers` (lines 89-180) with the default
`max_field_size` (8190). -/
def parseHeaders (maxFS : Nat) (lines : List (List Nat)) :
    Except PyErr ParsedHeaders :=
  match lines with
  | _ :: l1 :: rest =>
    match parseHdrLoop maxFS l1 rest [] with
    | .error e => .error e
    | .ok hdrsL =>
      -- keep-alive block (lines 157-166); an empty value is falsy
      let cu : Option Bool × Bool :=
        match ciGetBytes hdrsL (strB "Connection") with
        | some v =>
          if v ≠ [] then
            let vl := blower v
            if vl = strB "close" then (some true, false)
            else if vl = strB "keep-alive" then (some false, false)
            else if vl = strB "upgrade" then (none, true)
            else (none, false)
          else (none, false)
        | none => (none, false)
      -- encoding block (lines 168-173)
      let encoding : Option (List Nat) :=
        match ciGetBytes hdrsL (strB "Content-Encoding") with
        | some v =>
          if v ≠ [] then
            let e := blower v
            if e = strB "gzip" ∨ e = strB "deflate" then some e else none
          else none
        | none => none
      -- chunking block (lines 175-178)
      let chunked : Bool :=
        match ciGetBytes hdrsL (strB "Transfer-Encoding") with
        | some v => v ≠ [] ∧ isSubB (strB "chunked") (blower v)
        | none => false
      .ok { headers := hdrsL, closeConn := cu.1, encoding := encoding,
            upgrade := cu.2, chunked := chunked }
  | _ => .error .indexError

/-! ## HttpRequestParser.parse_message (lines 189-223) -/

/-- One whitespace-separated token: `(token, rest-after-token)`. -/
def takeNonWs : List Nat → List Nat × List Nat
  | [] => ([], [])
  | a :: r =>
    if isPyWs a then ([], a :: r)
    else
      let (t, rest) := takeNonWs r
      (a :: t, rest)

/-- Python `s.split(None, 2)`: split on runs of whitespace, at most twice;
the final field keeps its trailing whitespace, and a whitespace-only
remainder yields no field. -/
def splitWs2 (l : List Nat) : List (List Nat) :=
  let l1 := lstripBy isPyWs l
  if l1 = [] then []
  else
    let (t1, r1) := takeNonWs l1
    let r1 := lstripBy isPyWs r1
    if r1 = [] then [t1]
    else
      let (t2, r2) := takeNonWs r1
      let r2' := lstripBy isPyWs r2
      if r2' = [] then [t1, t2]
      else [t1, t2, r2']

/-- `METHRE.match(method)` (line 28, `[A-Z0-9$-_.]+` with `re.match`): the
character class is the contiguous byte range `$`(36)-`_`(95) (it contains
`A-Z`, `0-9` and `.`), and a `+`-match at position 0 succeeds exactly when
the first character is in the class. -/
def methOk (m : List Nat) : Bool :=
  match m with
  | [] => false
  | c :: _ => 36 ≤ c ∧ c ≤ 95

/-- `version[5:].split('.', 1)` unpacked into two fields; `none` is the
`ValueError` caught by the bare `except` (line 209). -/
def splitDotOnce (l : List Nat) : Option (List Nat × List Nat) :=
  match findByte 46 l with
  | none => none
  | some i => some (l.take i, l.drop (i + 1))

/-- `RawRequestMessage` (lines 60-63); `compression` is `encoding`. -/
structure RawReqMsg where
  method : List Nat
  path : List Nat
  version : Nat × Nat
  headers : List (List Nat × List Nat)
  shouldClose : Bool
  encoding : Option (List Nat)
  upgrade : Bool
  chunked : Bool
deriving DecidableEq, Repr

/-- `HttpRequestParser.parse_message` (lines 189-223).  The status line is
processed bytewise (its decode is `surrogateescape`, injective on the ASCII
inputs of interest); `int(...)` on the two version fields is `pyIntDec`. -/
def requestParseMessage (lines : List (List Nat)) : Except PyErr RawReqMsg :=
  match lines with
  | [] => .error .indexError
  | l0 :: _ =>
    match splitWs2 l0 with
    | [method, path, version] =>
      let method := bupper method
      if ¬ methOk method then .error .badStatusLine
      else if version.take 5 = strB "HTTP/" then
        match splitDotOnce (version.drop 5) with
        | none => .error .badStatusLine
        | some (n1, n2) =>
          match pyIntDec n1, pyIntDec n2 with
          | some a, some b =>
            match parseHeaders 8190 lines with
            | .error e => .error e
            | .ok ph =>
              let close :=
                match ph.closeConn with
                | some cc => cc
                | none => versionLe (a, b) httpVersion10
              .ok { method := method, path := path, version := (a, b),
                    headers := ph.headers, shouldClose := close,
                    encoding := ph.encoding, upgrade := ph.upgrade,
                    chunked := ph.chunked }
          | _, _ => .error .badStatusLine
      else .error .badStatusLine
    | _ => .error .badStatusLine

/-! ## HttpPayloadParser.feed_data (lines 321-418)

The chunked branch is a `while chunk:` loop whose body is four sequential
`if` blocks (size line / chunk data / chunk-terminating CRLF / trailers).
`chRun` mirrors it with an explicit program counter `CPos`: `.top` is the
`while` test, and the other positions are the four `if` blocks; a state
transition inside the body falls through to the following block exactly as
the Python control flow does.  Sink calls are accumulated as `SinkEvent`s;
the `Except` error carries the `TransferEncodingError` argument of a raise. -/

/-- Program counter inside the chunked `while` loop. -/
inductive CPos where
  | top
  | atSize
  | atChunk
  | atChunkEof
  | atTrailers
deriving DecidableEq, Repr

def cposWt : CPos → Nat
  | .top => 3
  | .atSize => 2
  | .atChunk => 1
  | .atChunkEof => 0
  | .atTrailers => 0

/-- The size-field bytes of a chunked size line: `chunk[:pos]` with any
chunk-extension after `;` stripped (lines 351-358). -/
def sizeField (chunk : List Nat) (pos : Nat) : List Nat :=
  match findByte 59 (chunk.take pos) with
  | some i => chunk.take i
  | none => chunk.take pos

/-- Outcome of one `feed_data` pass over the chunked machine: the mutated
`_chunk` / `_chunk_size` / `_chunk_tail` fields, and the function's return
value `(fin, leftover)` (`return True, tail` / `return False, None`). -/
structure ChOk where
  phase : ChunkPhase
  size : Nat
  tail : List Nat
  fin : Bool
  leftover : Option (List Nat)
deriving DecidableEq, Repr

/-- The chunked-mode `while` loop of `feed_data` (lines 345-412), started at
program position `pc` with `self._chunk = ph`, `self._chunk_size = sz` and
buffer `chunk` (tail already prepended). -/
def chRun (pc : CPos) (ph : ChunkPhase) (sz : Nat) (chunk : List Nat) :
    List SinkEvent × Except (List Nat) ChOk :=
  match pc with
  | .top =>
    if chunk = [] then ([], .ok ⟨ph, sz, [], false, none⟩)
    else
      match ph with
      | .parseChunkedSize => chRun .atSize ph sz chunk
      | .parseChunkedChunk => chRun .atChunk ph sz chunk
      | .parseChunkedChunkEof => chRun .atChunkEof ph sz chunk
      | .parseChunkedTrailers => chRun .atTrailers ph sz chunk
  | .atSize =>
    -- lines 348-375
    match findPair 13 10 chunk with
    | none => ([], .ok ⟨ph, sz, chunk, false, none⟩)
    | some pos =>
      match pyIntHex (sizeField chunk pos) with
      | none => ([.setExc (chunk.take pos)], .error (chunk.take pos))
      | some n =>
        if n = 0 then
          chRun .atTrailers .parseChunkedTrailers sz (chunk.drop (pos + 2))
        else
          chRun .atChunk .parseChunkedChunk n (chunk.drop (pos + 2))
  | .atChunk =>
    -- lines 378-393
    if sz ≥ chunk.length then
      let sz' := sz - chunk.length
      ([.data chunk],
       .ok ⟨if sz' = 0 then .parseChunkedChunkEof else ph, sz', [], false, none⟩)
    else
      let r := chRun .atChunkEof .parseChunkedChunkEof 0 (chunk.drop sz)
      (.data (chunk.take sz) :: r.1, r.2)
  | .atChunkEof =>
    -- lines 396-402
    if chunk.take 2 = [13, 10] then
      chRun .top .parseChunkedSize sz (chunk.drop 2)
    else ([], .ok ⟨ph, sz, chunk, false, none⟩)
  | .atTrailers =>
    -- lines 405-412
    match findPair 13 10 chunk with
    | some pos => ([.eof], .ok ⟨ph, sz, [], true, some (chunk.drop (pos + 2))⟩)
    | none => ([], .ok ⟨ph, sz, chunk, false, none⟩)
termination_by 4 * chunk.length + cposWt pc
decreasing_by
  all_goals simp only [cposWt, List.length_drop]
  all_goals try omega
  all_goals
    (rename_i h
     have hl := congrArg List.length h
     simp only [List.length_take, List.length_cons, List.length_nil] at hl
     omega)

/-- `HttpPayloadParser.feed_data` (lines 321-418): the sink events, and
either the `TransferEncodingError` argument (a raise) or the new parser
state with the returned `(consumed-everything?, leftover)` pair. -/
def feedData (st : PayState) (c : List Nat) :
    List SinkEvent × Except (List Nat) (PayState × Bool × Option (List Nat)) :=
  match st.type with
  | .parseLength =>
    -- lines 323-337
    let required := st.length
    let clen := c.length
    if required ≥ clen then
      let st' := { st with length := required - clen }
      if st'.length = 0 then ([.data c, .eof], .ok (st', true, some []))
      else ([.data c], .ok (st', false, none))
    else
      ([.data (c.take required), .eof],
       .ok ({ st with length := 0 }, true, some (c.drop required)))
  | .parseChunked =>
    -- lines 340-412: prepend the stored tail, then run the loop
    let r := chRun .top st.chunk st.chunkSize (st.chunkTail ++ c)
    match r.2 with
    | .error e => (r.1, .error e)
    | .ok o =>
      (r.1, .ok ({ st with chunk := o.phase, chunkSize := o.size,
                           chunkTail := o.tail }, o.fin, o.leftover))
  | .parseUntilEof =>
    -- lines 415-416
    ([.data c], .ok (st, false, none))
  | .parseNone => ([], .ok (st, false, none))

/-- Feed a sequence of buffers successively to `feed_data`, collecting the
sink events; a raise aborts the sequence. -/
def feedAll (st : PayState) : List (List Nat) → List SinkEvent
  | [] => []
  | c :: rest =>
    let (ev, r) := feedData st c
    match r with
    | .ok (st', _, _) => ev ++ feedAll st' rest
    | .error _ => ev

/-- Concatenated body bytes delivered to the sink by a list of events. -/
def evOut : List SinkEvent → List Nat
  | [] => []
  | .data b :: rest => b ++ evOut rest
  | .eof :: rest => evOut rest
  | .setExc _ :: rest => evOut rest

/-- The three body framing modes of the specification. -/
inductive FrMode where
  | fixedLength (n : Nat)
  | chunked
  | readToEof
deriving DecidableEq, Repr

/-- A fresh `HttpPayloadParser` for each framing mode, via
`HttpPayloadParser.__init__`: `length=n` / `chunked=True` /
`readall=True`. -/
def initState : FrMode → PayState
  | .fixedLength n => (payloadInit (some n) false none none false true).st
  | .chunked => (payloadInit none true none none false true).st
  | .readToEof => (payloadInit none false none none true true).st

/-- Well-formed chunked byte streams and their decoded bodies: frames
`<hex-size>\r\n<data>\r\n` (nonzero size, size field a nonempty run of hex
digits) terminated by `<hex-size-of-0>\r\n\r\n`. -/
inductive ChunkedWF : List Nat → List Nat → Prop
  | last (s : List Nat) :
      s ≠ [] → (∀ b ∈ s, isHexDigitByte b) → pyIntHex s = some 0 →
      ChunkedWF (s ++ [13, 10] ++ [13, 10]) []
  | frame (s d rest body : List Nat) (n : Nat) :
      s ≠ [] → (∀ b ∈ s, isHexDigitByte b) → pyIntHex s = some n → n ≠ 0 →
      d.length = n → ChunkedWF rest body →
      ChunkedWF (s ++ [13, 10] ++ d ++ [13, 10] ++ rest) (d ++ body)

/-- Well-formed body streams per framing mode, with their decoded bodies. -/
inductive WellFormed : FrMode → List Nat → List Nat → Prop
  | fixedLength (S : List Nat) : WellFormed (.fixedLength S.length) S S
  | chunked (S body : List Nat) : ChunkedWF S body → WellFormed .chunked S body
  | readToEof (S : List Nat) : WellFormed .readToEof S S

/-- Consistency of the program counter with `self._chunk`: inside each of the
four `if` blocks of the loop body, `self._chunk` holds the matching state
(this is how every call site of `chRun` instantiates it). -/
def pcOK : CPos → ChunkPhase → Prop
  | .top, _ => True
  | .atSize, ph => ph = .parseChunkedSize
  | .atChunk, ph => ph = .parseChunkedChunk
  | .atChunkEof, ph => ph = .parseChunkedChunkEof
  | .atTrailers, ph => ph = .parseChunkedTrailers

/-- How a finished (or raised) `chRun` outcome reads when the input had
`w` appended: identical, except that the reported leftover grows by `w`. -/
def closedExtend (r : Except (List Nat) ChOk) (w : List Nat) :
    Except (List Nat) ChOk :=
  match r with
  | .error e => .error e
  | .ok o => .ok { o with leftover := o.leftover.map (· ++ w) }

/-! ### Unfolding equations for `chRun`, one per program position -/

theorem chRun_atSize (ph : ChunkPhase) (sz : Nat) (chunk : List Nat) :
    chRun .atSize ph sz chunk =
      match findPair 13 10 chunk with
      | none => ([], .ok ⟨ph, sz, chunk, false, none⟩)
      | some pos =>
        match pyIntHex (sizeField chunk pos) with
        | none => ([.setExc (chunk.take pos)], .error (chunk.take pos))
        | some n =>
          if n = 0 then
            chRun .atTrailers .parseChunkedTrailers sz (chunk.drop (pos + 2))
          else
            chRun .atChunk .parseChunkedChunk n (chunk.drop (pos + 2)) := by
  rw [chRun.eq_def]

theorem chRun_atChunk (ph : ChunkPhase) (sz : Nat) (chunk : List Nat) :
    chRun .atChunk ph sz chunk =
      if sz ≥ chunk.length then
        ([.data chunk],
         .ok ⟨if sz - chunk.length = 0 then .parseChunkedChunkEof else ph,
              sz - chunk.length, [], false, none⟩)
      else
        (.data (chunk.take sz) ::
           (chRun .atChunkEof .parseChunkedChunkEof 0 (chunk.drop sz)).1,
         (chRun .atChunkEof .parseChunkedChunkEof 0 (chunk.drop sz)).2) := by
  rw [chRun.eq_def]

theorem chRun_top (ph : ChunkPhase) (sz : Nat) (chunk : List Nat) :
    chRun .top ph sz chunk =
      if chunk = [] then ([], .ok ⟨ph, sz, [], false, none⟩)
      else
        match ph with
        | .parseChunkedSize => chRun .atSize ph sz chunk
        | .parseChunkedChunk => chRun .atChunk ph sz chunk
        | .parseChunkedChunkEof => chRun .atChunkEof ph sz chunk
        | .parseChunkedTrailers => chRun .atTrailers ph sz chunk := by
  rw [chRun.eq_def]

theorem chRun_atChunkEof (ph : ChunkPhase) (sz : Nat) (chunk : List Nat) :
    chRun .atChunkEof ph sz chunk =
      if chunk.take 2 = [13, 10] then
        chRun .top .parseChunkedSize sz (chunk.drop 2)
      else ([], .ok ⟨ph, sz, chunk, false, none⟩) := by
  rw [chRun.eq_def]

theorem chRun_atTrailers (ph : ChunkPhase) (sz : Nat) (chunk : List Nat) :
    chRun .atTrailers ph sz chunk =
      match findPair 13 10 chunk with
      | some pos => ([.eof], .ok ⟨ph, sz, [], true, some (chunk.drop (pos + 2))⟩)
      | none => ([], .ok ⟨ph, sz, chunk, false, none⟩) := by
  rw [chRun.eq_def]

/-! ### Properties of the byte-search primitives -/

theorem findPair_bound (x y : Nat) :
    ∀ (l : List Nat) (p : Nat), findPair x y l = some p → p + 2 ≤ l.length := by
  intro l
  induction l with
  | nil => intro p h; simp [findPair] at h
  | cons a t ih =>
    intro p h
    match t, ih, h with
    | [], _, h => simp [findPair] at h
    | b :: rest, ih, h =>
      rw [findPair] at h
      split at h
      · simp only [Option.some.injEq] at h
        subst h
        simp
      · simp only [Option.map_eq_some'] at h
        obtain ⟨q, hq, rfl⟩ := h
        have := ih q hq
        simp only [List.length_cons] at this ⊢
        omega

theorem findPair_append (x y : Nat) (w : List Nat) :
    ∀ (l : List Nat) (p : Nat), findPair x y l = some p →
      findPair x y (l ++ w) = some p := by
  intro l
  induction l with
  | nil => intro p h; simp [findPair] at h
  | cons a t ih =>
    intro p h
    match t, ih, h with
    | [], _, h => simp [findPair] at h
    | b :: rest, ih, h =>
      rw [findPair] at h
      split at h
      · simp only [Option.some.injEq] at h
        subst h
        show findPair x y ((a :: b :: rest) ++ w) = some 0
        simp only [List.cons_append]
        rw [findPair, if_pos (by assumption)]
      · simp only [Option.map_eq_some'] at h
        obtain ⟨q, hq, rfl⟩ := h
        show findPair x y ((a :: b :: rest) ++ w) = some (q + 1)
        simp only [List.cons_append]
        rw [findPair, if_neg (by assumption)]
        have hq' := ih q hq
        simp only [List.cons_append] at hq'
        rw [hq']
        rfl

/-- If the head byte cannot start the pair, `findPair` recurses on the
tail. -/
theorem findPair_cons_of_ne (x y c : Nat) (l : List Nat)
    (h : ¬ (c = x ∧ l.head? = some y)) :
    findPair x y (c :: l) = (findPair x y l).map (· + 1) := by
  match l with
  | [] => simp [findPair]
  | d :: rest =>
    rw [findPair]
    rw [if_neg (by simpa using h)]

/-- Locating the CRLF that terminates a CR-free prefix. -/
theorem findPair_crlf (t : List Nat) :
    ∀ (s : List Nat), (∀ c ∈ s, c ≠ 13) →
      findPair 13 10 (s ++ 13 :: 10 :: t) = some s.length := by
  intro s
  induction s with
  | nil => intro _; rw [List.nil_append, findPair]; simp
  | cons c s' ih =>
    intro hs
    rw [List.cons_append, findPair_cons_of_ne]
    · rw [ih fun c hc => hs c (List.mem_cons_of_mem _ hc)]
      simp
    · rintro ⟨rfl, -⟩
      exact hs 13 (List.mem_cons_self _ _) rfl

theorem findByte_eq_none (t : Nat) :
    ∀ (l : List Nat), (∀ c ∈ l, c ≠ t) → findByte t l = none := by
  intro l
  induction l with
  | nil => intro _; rfl
  | cons a r ih =>
    intro h
    rw [findByte.eq_def]
    simp only
    rw [if_neg (h a (List.mem_cons_self _ _)), ih fun c hc => h c (.tail _ hc)]
    rfl

theorem findByte_lt (t : Nat) :
    ∀ (l : List Nat) (i : Nat), findByte t l = some i → i < l.length := by
  intro l
  induction l with
  | nil => intro i h; simp [findByte] at h
  | cons a r ih =>
    intro i h
    rw [findByte.eq_def] at h
    simp only at h
    split at h
    · simp only [Option.some.injEq] at h
      subst h
      simp
    · simp only [Option.map_eq_some'] at h
      obtain ⟨q, hq, rfl⟩ := h
      have := ih q hq
      simp only [List.length_cons]
      omega

/-- `sizeField` only looks at the first `pos` bytes, which lie inside `a`
whenever a CRLF was found in `a`. -/
theorem sizeField_append (a w : List Nat) (pos : Nat) (hpos : pos ≤ a.length) :
    sizeField (a ++ w) pos = sizeField a pos := by
  unfold sizeField
  rw [List.take_append_of_le_length hpos]
  rcases hf : findByte 59 (a.take pos) with _ | i <;> simp only [hf]
  · have hi : i ≤ a.length := by
      have h1 := findByte_lt 59 (a.take pos) i hf
      have h2 := List.length_take_le pos a
      omega
    rw [List.take_append_of_le_length hi]

/-! ### Incrementality of the chunked machine

A `feed_data` pass that neither finishes the message nor raises leaves the
machine in a *quiescent* state: re-running the loop on the stored tail alone
makes no progress (`chRun_blocked_stable`), and running it on the stored
tail extended by more input picks up exactly where the pass left off
(`chRun_append`). -/

theorem chRun_blocked_stable :
    ∀ (pc : CPos) (ph : ChunkPhase) (sz : Nat) (chunk : List Nat),
      pcOK pc ph →
      ∀ (ev : List SinkEvent) (o : ChOk),
        chRun pc ph sz chunk = (ev, .ok o) → o.fin = false →
        o.leftover = none ∧
        chRun .top o.phase o.size o.tail =
          ([], .ok ⟨o.phase, o.size, o.tail, false, none⟩) := by
  intro pc ph sz chunk
  induction pc, ph, sz, chunk using chRun.induct with
  | case1 ph sz =>
    intro _ ev o h hfin
    rw [chRun_top, if_pos rfl] at h
    simp only [Prod.mk.injEq, Except.ok.injEq] at h
    obtain ⟨rfl, rfl⟩ := h
    exact ⟨rfl, by rw [chRun_top, if_pos rfl]⟩
  | case2 sz chunk hne ih =>
    intro _ ev o h hfin
    rw [chRun_top, if_neg hne] at h
    exact ih rfl ev o h hfin
  | case3 sz chunk hne ih =>
    intro _ ev o h hfin
    rw [chRun_top, if_neg hne] at h
    exact ih rfl ev o h hfin
  | case4 sz chunk hne ih =>
    intro _ ev o h hfin
    rw [chRun_top, if_neg hne] at h
    exact ih rfl ev o h hfin
  | case5 sz chunk hne ih =>
    intro _ ev o h hfin
    rw [chRun_top, if_neg hne] at h
    exact ih rfl ev o h hfin
  | case6 ph sz chunk hfp =>
    intro hok ev o h hfin
    simp only [pcOK] at hok
    subst hok
    rw [chRun_atSize] at h
    simp only [hfp, Prod.mk.injEq, Except.ok.injEq] at h
    obtain ⟨rfl, rfl⟩ := h
    refine ⟨rfl, ?_⟩
    rcases eq_or_ne chunk [] with rfl | hne
    · rw [chRun_top, if_pos rfl]
    · rw [chRun_top, if_neg hne]
      rw [chRun_atSize]
      simp [hfp]
  | case7 ph sz chunk L hfp hhex =>
    intro hok ev o h hfin
    rw [chRun_atSize] at h
    simp only [hfp, hhex, Prod.mk.injEq] at h
    exact absurd h.2 (by simp)
  | case8 ph sz chunk L hfp hhex ih =>
    intro hok ev o h hfin
    rw [chRun_atSize] at h
    simp only [hfp, hhex, if_pos rfl] at h
    exact ih rfl ev o h hfin
  | case9 ph sz chunk L hfp L1 hhex hL1 ih =>
    intro hok ev o h hfin
    rw [chRun_atSize] at h
    simp only [hfp, hhex, if_neg hL1] at h
    exact ih rfl ev o h hfin
  | case10 ph sz chunk hge =>
    intro hok ev o h hfin
    rw [chRun_atChunk, if_pos hge] at h
    simp only [Prod.mk.injEq, Except.ok.injEq] at h
    obtain ⟨rfl, rfl⟩ := h
    exact ⟨rfl, by rw [chRun_top, if_pos rfl]⟩
  | case11 ph sz chunk hge ih =>
    intro hok ev o h hfin
    rw [chRun_atChunk, if_neg hge] at h
    have hr2 := congrArg Prod.snd h
    simp only at hr2
    have hr : chRun .atChunkEof .parseChunkedChunkEof 0 (chunk.drop sz) =
        ((chRun .atChunkEof .parseChunkedChunkEof 0 (chunk.drop sz)).1, .ok o) := by
      rw [← hr2]
    exact ih rfl _ o hr hfin
  | case12 ph sz chunk h2 ih =>
    intro hok ev o h hfin
    rw [chRun_atChunkEof, if_pos h2] at h
    exact ih trivial ev o h hfin
  | case13 ph sz chunk h2 =>
    intro hok ev o h hfin
    simp only [pcOK] at hok
    subst hok
    rw [chRun_atChunkEof, if_neg h2] at h
    simp only [Prod.mk.injEq, Except.ok.injEq] at h
    obtain ⟨rfl, rfl⟩ := h
    refine ⟨rfl, ?_⟩
    rcases eq_or_ne chunk [] with rfl | hne
    · rw [chRun_top, if_pos rfl]
    · rw [chRun_top, if_neg hne]
      rw [chRun_atChunkEof, if_neg h2]
  | case14 ph sz chunk n hfp =>
    intro hok ev o h hfin
    rw [chRun_atTrailers] at h
    simp only [hfp, Prod.mk.injEq, Except.ok.injEq] at h
    obtain ⟨rfl, rfl⟩ := h
    simp at hfin
  | case15 ph sz chunk hfp =>
    intro hok ev o h hfin
    simp only [pcOK] at hok
    subst hok
    rw [chRun_atTrailers] at h
    simp only [hfp, Prod.mk.injEq, Except.ok.injEq] at h
    obtain ⟨rfl, rfl⟩ := h
    refine ⟨rfl, ?_⟩
    rcases eq_or_ne chunk [] with rfl | hne
    · rw [chRun_top, if_pos rfl]
    · rw [chRun_top, if_neg hne]
      rw [chRun_atTrailers]
      simp [hfp]

theorem take_two_crlf_length {a : List Nat} (h : a.take 2 = [13, 10]) :
    2 ≤ a.length := by
  have := congrArg List.length h
  simp only [List.length_take, List.length_cons, List.length_nil] at this
  omega

theorem chRun_append_closed (w : List Nat) :
    ∀ (pc : CPos) (ph : ChunkPhase) (sz : Nat) (a : List Nat),
      ∀ (ev : List SinkEvent) (r : Except (List Nat) ChOk),
        chRun pc ph sz a = (ev, r) →
        (∀ o, r = .ok o → o.fin = true) →
        chRun pc ph sz (a ++ w) = (ev, closedExtend r w) := by
  intro pc ph sz a
  induction pc, ph, sz, a using chRun.induct with
  | case1 ph sz =>
    intro ev r h hcl
    rw [chRun_top, if_pos rfl] at h
    simp only [Prod.mk.injEq] at h
    obtain ⟨rfl, rfl⟩ := h
    exact absurd (hcl _ rfl) (by simp)
  | case2 sz a hne ih =>
    intro ev r h hcl
    rw [chRun_top, if_neg hne] at h
    have hne' : a ++ w ≠ [] := fun hc => hne (List.append_eq_nil.1 hc).1
    rw [chRun_top, if_neg hne']
    exact ih ev r h hcl
  | case3 sz a hne ih =>
    intro ev r h hcl
    rw [chRun_top, if_neg hne] at h
    have hne' : a ++ w ≠ [] := fun hc => hne (List.append_eq_nil.1 hc).1
    rw [chRun_top, if_neg hne']
    exact ih ev r h hcl
  | case4 sz a hne ih =>
    intro ev r h hcl
    rw [chRun_top, if_neg hne] at h
    have hne' : a ++ w ≠ [] := fun hc => hne (List.append_eq_nil.1 hc).1
    rw [chRun_top, if_neg hne']
    exact ih ev r h hcl
  | case5 sz a hne ih =>
    intro ev r h hcl
    rw [chRun_top, if_neg hne] at h
    have hne' : a ++ w ≠ [] := fun hc => hne (List.append_eq_nil.1 hc).1
    rw [chRun_top, if_neg hne']
    exact ih ev r h hcl
  | case6 ph sz a hfp =>
    intro ev r h hcl
    rw [chRun_atSize] at h
    simp only [hfp, Prod.mk.injEq] at h
    obtain ⟨rfl, rfl⟩ := h
    exact absurd (hcl _ rfl) (by simp)
  | case7 ph sz a L hfp hhex =>
    intro ev r h hcl
    have hb := findPair_bound 13 10 a L hfp
    have hfp' := findPair_append 13 10 w a L hfp
    have hsf := sizeField_append a w L (by omega)
    have htake : (a ++ w).take L = a.take L :=
      List.take_append_of_le_length (by omega)
    rw [chRun_atSize] at h
    simp only [hfp, hhex, Prod.mk.injEq] at h
    obtain ⟨rfl, rfl⟩ := h
    rw [chRun_atSize]
    simp only [hfp', hsf, hhex, htake, closedExtend]
  | case8 ph sz a L hfp hhex ih =>
    intro ev r h hcl
    have hb := findPair_bound 13 10 a L hfp
    have hfp' := findPair_append 13 10 w a L hfp
    have hsf := sizeField_append a w L (by omega)
    have hdrop := @List.drop_append_of_le_length _ a w _
      (show L + 2 ≤ a.length by omega)
    rw [chRun_atSize] at h
    simp only [hfp, hhex, if_pos rfl] at h
    rw [chRun_atSize]
    simp only [hfp', hsf, hhex, if_pos rfl, hdrop]
    exact ih ev r h hcl
  | case9 ph sz a L hfp L1 hhex hL1 ih =>
    intro ev r h hcl
    have hb := findPair_bound 13 10 a L hfp
    have hfp' := findPair_append 13 10 w a L hfp
    have hsf := sizeField_append a w L (by omega)
    have hdrop := @List.drop_append_of_le_length _ a w _
      (show L + 2 ≤ a.length by omega)
    rw [chRun_atSize] at h
    simp only [hfp, hhex, if_neg hL1] at h
    rw [chRun_atSize]
    simp only [hfp', hsf, hhex, if_neg hL1, hdrop]
    exact ih ev r h hcl
  | case10 ph sz a hge =>
    intro ev r h hcl
    rw [chRun_atChunk, if_pos hge] at h
    simp only [Prod.mk.injEq] at h
    obtain ⟨rfl, rfl⟩ := h
    exact absurd (hcl _ rfl) (by simp)
  | case11 ph sz a hge ih =>
    intro ev r h hcl
    rw [chRun_atChunk, if_neg hge] at h
    simp only [Prod.mk.injEq] at h
    obtain ⟨rfl, rfl⟩ := h
    have hlen : ¬ sz ≥ (a ++ w).length := by
      simp only [List.length_append]; omega
    have htake : (a ++ w).take sz = a.take sz :=
      List.take_append_of_le_length (by omega)
    have hdrop : (a ++ w).drop sz = a.drop sz ++ w :=
      List.drop_append_of_le_length (by omega)
    rw [chRun_atChunk, if_neg hlen]
    simp only [htake, hdrop]
    rw [ih _ _ rfl hcl]
  | case12 ph sz a h2 ih =>
    intro ev r h hcl
    rw [chRun_atChunkEof, if_pos h2] at h
    have hlen := take_two_crlf_length h2
    have h2' : (a ++ w).take 2 = [13, 10] := by
      rw [List.take_append_of_le_length hlen, h2]
    have hdrop : (a ++ w).drop 2 = a.drop 2 ++ w :=
      List.drop_append_of_le_length hlen
    rw [chRun_atChunkEof, if_pos h2', hdrop]
    exact ih ev r h hcl
  | case13 ph sz a h2 =>
    intro ev r h hcl
    rw [chRun_atChunkEof, if_neg h2] at h
    simp only [Prod.mk.injEq] at h
    obtain ⟨rfl, rfl⟩ := h
    exact absurd (hcl _ rfl) (by simp)
  | case14 ph sz a pos hfp =>
    intro ev r h hcl
    have hb := findPair_bound 13 10 a pos hfp
    have hfp' := findPair_append 13 10 w a pos hfp
    have hdrop : (a ++ w).drop (pos + 2) = a.drop (pos + 2) ++ w :=
      List.drop_append_of_le_length (by omega)
    rw [chRun_atTrailers] at h
    simp only [hfp, Prod.mk.injEq] at h
    obtain ⟨rfl, rfl⟩ := h
    rw [chRun_atTrailers]
    simp only [hfp', hdrop, closedExtend, Option.map_some']
  | case15 ph sz a hfp =>
    intro ev r h hcl
    rw [chRun_atTrailers] at h
    simp only [hfp, Prod.mk.injEq] at h
    obtain ⟨rfl, rfl⟩ := h
    exact absurd (hcl _ rfl) (by simp)

theorem evOut_append :
    ∀ (l₁ l₂ : List SinkEvent), evOut (l₁ ++ l₂) = evOut l₁ ++ evOut l₂ := by
  intro l₁
  induction l₁ with
  | nil => intro l₂; rfl
  | cons e r ih =>
    intro l₂
    cases e <;> simp [evOut, ih, List.append_assoc]

theorem chRun_append (w : List Nat) :
    ∀ (pc : CPos) (ph : ChunkPhase) (sz : Nat) (a : List Nat),
      pcOK pc ph →
      ∀ (ev : List SinkEvent) (o : ChOk),
        chRun pc ph sz a = (ev, .ok o) → o.fin = false →
        (chRun pc ph sz (a ++ w)).2 =
          (chRun .top o.phase o.size (o.tail ++ w)).2 ∧
        evOut (chRun pc ph sz (a ++ w)).1 =
          evOut ev ++ evOut (chRun .top o.phase o.size (o.tail ++ w)).1 := by
  intro pc ph sz a
  induction pc, ph, sz, a using chRun.induct with
  | case1 ph sz =>
    intro _ ev o h hfin
    rw [chRun_top, if_pos rfl] at h
    simp only [Prod.mk.injEq, Except.ok.injEq] at h
    obtain ⟨rfl, rfl⟩ := h
    exact ⟨rfl, by simp [evOut]⟩
  | case2 sz a hne ih =>
    intro _ ev o h hfin
    rw [chRun_top, if_neg hne] at h
    have hne' : a ++ w ≠ [] := fun hc => hne (List.append_eq_nil.1 hc).1
    constructor
    · rw [chRun_top, if_neg hne']
      exact (ih rfl ev o h hfin).1
    · rw [chRun_top, if_neg hne']
      exact (ih rfl ev o h hfin).2
  | case3 sz a hne ih =>
    intro _ ev o h hfin
    rw [chRun_top, if_neg hne] at h
    have hne' : a ++ w ≠ [] := fun hc => hne (List.append_eq_nil.1 hc).1
    constructor
    · rw [chRun_top, if_neg hne']
      exact (ih rfl ev o h hfin).1
    · rw [chRun_top, if_neg hne']
      exact (ih rfl ev o h hfin).2
  | case4 sz a hne ih =>
    intro _ ev o h hfin
    rw [chRun_top, if_neg hne] at h
    have hne' : a ++ w ≠ [] := fun hc => hne (List.append_eq_nil.1 hc).1
    constructor
    · rw [chRun_top, if_neg hne']
      exact (ih rfl ev o h hfin).1
    · rw [chRun_top, if_neg hne']
      exact (ih rfl ev o h hfin).2
  | case5 sz a hne ih =>
    intro _ ev o h hfin
    rw [chRun_top, if_neg hne] at h
    have hne' : a ++ w ≠ [] := fun hc => hne (List.append_eq_nil.1 hc).1
    constructor
    · rw [chRun_top, if_neg hne']
      exact (ih rfl ev o h hfin).1
    · rw [chRun_top, if_neg hne']
      exact (ih rfl ev o h hfin).2
  | case6 ph sz a hfp =>
    intro hok ev o h hfin
    simp only [pcOK] at hok
    subst hok
    rw [chRun_atSize] at h
    simp only [hfp, Prod.mk.injEq, Except.ok.injEq] at h
    obtain ⟨rfl, rfl⟩ := h
    dsimp only
    rcases eq_or_ne (a ++ w) [] with hnil | hne
    · obtain ⟨rfl, rfl⟩ := List.append_eq_nil.1 hnil
      refine ⟨?_, ?_⟩ <;> simp [chRun_atSize, chRun_top, hfp, evOut]
    · refine ⟨?_, ?_⟩
      · rw [chRun_top, if_neg hne]
      · rw [chRun_top, if_neg hne]
        simp [evOut]
  | case7 ph sz a L hfp hhex =>
    intro hok ev o h hfin
    rw [chRun_atSize] at h
    simp only [hfp, hhex, Prod.mk.injEq] at h
    exact absurd h.2 (by simp)
  | case8 ph sz a L hfp hhex ih =>
    intro hok ev o h hfin
    have hb := findPair_bound 13 10 a L hfp
    have hfp' := findPair_append 13 10 w a L hfp
    have hsf := sizeField_append a w L (by omega)
    have hdrop := @List.drop_append_of_le_length _ a w _ (show L + 2 ≤ a.length by omega)
    rw [chRun_atSize] at h
    simp only [hfp, hhex, if_pos rfl] at h
    have goal2 := ih rfl ev o h hfin
    constructor
    · rw [chRun_atSize]
      simp only [hfp', hsf, hhex, if_pos rfl, hdrop]
      exact goal2.1
    · rw [chRun_atSize]
      simp only [hfp', hsf, hhex, if_pos rfl, hdrop]
      exact goal2.2
  | case9 ph sz a L hfp L1 hhex hL1 ih =>
    intro hok ev o h hfin
    have hb := findPair_bound 13 10 a L hfp
    have hfp' := findPair_append 13 10 w a L hfp
    have hsf := sizeField_append a w L (by omega)
    have hdrop := @List.drop_append_of_le_length _ a w _ (show L + 2 ≤ a.length by omega)
    rw [chRun_atSize] at h
    simp only [hfp, hhex, if_neg hL1] at h
    have goal2 := ih rfl ev o h hfin
    constructor
    · rw [chRun_atSize]
      simp only [hfp', hsf, hhex, if_neg hL1, hdrop]
      exact goal2.1
    · rw [chRun_atSize]
      simp only [hfp', hsf, hhex, if_neg hL1, hdrop]
      exact goal2.2
  | case10 ph sz a hge =>
    intro hok ev o h hfin
    simp only [pcOK] at hok
    subst hok
    rw [chRun_atChunk, if_pos hge] at h
    simp only [Prod.mk.injEq, Except.ok.injEq] at h
    obtain ⟨rfl, rfl⟩ := h
    dsimp only
    simp only [List.nil_append]
    rcases eq_or_ne w [] with rfl | hw
    · rw [List.append_nil]
      refine ⟨?_, ?_⟩
      · rw [chRun_atChunk, if_pos hge, chRun_top, if_pos rfl]
      · rw [chRun_atChunk, if_pos hge, chRun_top, if_pos rfl]
        simp [evOut]
    · rcases Nat.eq_zero_or_pos (sz - a.length) with hd0 | hdpos
      · -- the whole remaining chunk size was consumed exactly: next is CRLF
        have hsz : sz = a.length := by omega
        subst hsz
        rw [if_pos hd0]
        rw [chRun_top, if_neg hw]
        dsimp only
        have hlt : ¬ a.length ≥ (a ++ w).length := by
          simp only [List.length_append]
          rcases w with _ | ⟨x, xs⟩
          · exact absurd rfl hw
          · simp
        refine ⟨?_, ?_⟩
        · rw [chRun_atChunk, if_neg hlt]
          simp only [List.take_left, List.drop_left, hd0]
        · rw [chRun_atChunk, if_neg hlt]
          simp only [List.take_left, List.drop_left, hd0]
          simp [evOut]
      · -- more chunk bytes expected: state stays PARSE_CHUNKED_CHUNK
        have hphase : (if sz - a.length = 0 then ChunkPhase.parseChunkedChunkEof
            else ChunkPhase.parseChunkedChunk) = .parseChunkedChunk := by
          rw [if_neg (by omega)]
        rw [hphase]
        rw [chRun_top, if_neg hw]
        dsimp only
        rcases le_or_lt w.length (sz - a.length) with hle | hlt
        · -- the appended bytes are still within the chunk
          have hge' : sz ≥ (a ++ w).length := by
            simp only [List.length_append]; omega
          refine ⟨?_, ?_⟩
          · rw [chRun_atChunk, if_pos hge', chRun_atChunk, if_pos hle]
            simp only [List.length_append, Except.ok.injEq, ChOk.mk.injEq]
            have he : sz - (a.length + w.length) = sz - a.length - w.length := by
              omega
            rw [he]
            simp
          · rw [chRun_atChunk, if_pos hge', chRun_atChunk, if_pos hle]
            simp [evOut]
        · -- the appended bytes finish the chunk and more
          have hge' : ¬ sz ≥ (a ++ w).length := by
            simp only [List.length_append]; omega
          have htake : (a ++ w).take sz = a ++ w.take (sz - a.length) := by
            rw [List.take_append_eq_append_take,
                List.take_of_length_le (by omega)]
          have hdrop : (a ++ w).drop sz = w.drop (sz - a.length) := by
            rw [List.drop_append_eq_append_drop,
                List.drop_eq_nil_iff.2 (by omega), List.nil_append]
          refine ⟨?_, ?_⟩
          · rw [chRun_atChunk, if_neg hge', chRun_atChunk, if_neg (by omega)]
            simp only [hdrop]
          · rw [chRun_atChunk, if_neg hge', chRun_atChunk, if_neg (by omega)]
            simp only [htake, hdrop, evOut, evOut_append]
            simp [evOut, List.append_assoc]
  | case11 ph sz a hge ih =>
    intro hok ev o h hfin
    rw [chRun_atChunk, if_neg hge] at h
    have hr2 := congrArg Prod.snd h
    have hr1 := congrArg Prod.fst h
    simp only at hr2 hr1
    have hX : chRun .atChunkEof .parseChunkedChunkEof 0 (a.drop sz) =
        ((chRun .atChunkEof .parseChunkedChunkEof 0 (a.drop sz)).1, .ok o) := by
      rw [← hr2]
    have ihr := ih rfl _ o hX hfin
    have hlen : ¬ sz ≥ (a ++ w).length := by
      simp only [List.length_append]; omega
    have htake : (a ++ w).take sz = a.take sz :=
      List.take_append_of_le_length (by omega)
    have hdrop : (a ++ w).drop sz = a.drop sz ++ w :=
      List.drop_append_of_le_length (by omega)
    refine ⟨?_, ?_⟩
    · rw [chRun_atChunk, if_neg hlen]
      simp only [hdrop]
      exact ihr.1
    · rw [chRun_atChunk, if_neg hlen]
      simp only [htake, hdrop, evOut]
      rw [ihr.2, ← hr1]
      simp [evOut, List.append_assoc]
  | case12 ph sz a h2 ih =>
    intro hok ev o h hfin
    rw [chRun_atChunkEof, if_pos h2] at h
    have hlen := take_two_crlf_length h2
    have h2' : (a ++ w).take 2 = [13, 10] := by
      rw [List.take_append_of_le_length hlen, h2]
    have hdrop : (a ++ w).drop 2 = a.drop 2 ++ w :=
      List.drop_append_of_le_length hlen
    have ihr := ih trivial ev o h hfin
    refine ⟨?_, ?_⟩
    · rw [chRun_atChunkEof, if_pos h2', hdrop]
      exact ihr.1
    · rw [chRun_atChunkEof, if_pos h2', hdrop]
      exact ihr.2
  | case13 ph sz a h2 =>
    intro hok ev o h hfin
    simp only [pcOK] at hok
    subst hok
    rw [chRun_atChunkEof, if_neg h2] at h
    simp only [Prod.mk.injEq, Except.ok.injEq] at h
    obtain ⟨rfl, rfl⟩ := h
    dsimp only
    rcases eq_or_ne (a ++ w) [] with hnil | hne
    · obtain ⟨rfl, rfl⟩ := List.append_eq_nil.1 hnil
      refine ⟨?_, ?_⟩ <;> simp [chRun_atChunkEof, chRun_top, h2, evOut]
    · refine ⟨?_, ?_⟩
      · rw [chRun_top, if_neg hne]
      · rw [chRun_top, if_neg hne]
        simp [evOut]
  | case14 ph sz a n hfp =>
    intro hok ev o h hfin
    rw [chRun_atTrailers] at h
    simp only [hfp, Prod.mk.injEq, Except.ok.injEq] at h
    obtain ⟨rfl, rfl⟩ := h
    simp at hfin
  | case15 ph sz a hfp =>
    intro hok ev o h hfin
    simp only [pcOK] at hok
    subst hok
    rw [chRun_atTrailers] at h
    simp only [hfp, Prod.mk.injEq, Except.ok.injEq] at h
    obtain ⟨rfl, rfl⟩ := h
    dsimp only
    rcases eq_or_ne (a ++ w) [] with hnil | hne
    · obtain ⟨rfl, rfl⟩ := List.append_eq_nil.1 hnil
      refine ⟨?_, ?_⟩ <;> simp [chRun_atTrailers, chRun_top, hfp, evOut]
    · refine ⟨?_, ?_⟩
      · rw [chRun_top, if_neg hne]
      · rw [chRun_top, if_neg hne]
        simp [evOut]

/-! ### Processing a well-formed chunked stream in one pass -/

theorem hex_ne {c : Nat} (h : isHexDigitByte c = true) : c ≠ 13 ∧ c ≠ 59 := by
  constructor <;> rintro rfl <;> revert h <;> decide

/-- Consuming one well-formed size line `s ++ "\r\n"`. -/
theorem chRun_size_step (s X : List Nat) (sz n : Nat) (hne : s ≠ [])
    (hhex : ∀ b ∈ s, isHexDigitByte b) (hparse : pyIntHex s = some n) :
    chRun .top .parseChunkedSize sz (s ++ 13 :: 10 :: X) =
      if n = 0 then chRun .atTrailers .parseChunkedTrailers sz X
      else chRun .atChunk .parseChunkedChunk n X := by
  have hno13 : ∀ c ∈ s, c ≠ 13 := fun c hc => (hex_ne (hhex c hc)).1
  have hno59 : ∀ c ∈ s, c ≠ 59 := fun c hc => (hex_ne (hhex c hc)).2
  have hSne : s ++ 13 :: 10 :: X ≠ [] := by cases s <;> simp
  rw [chRun_top, if_neg hSne]
  dsimp only
  rw [chRun_atSize, findPair_crlf X s hno13]
  dsimp only
  have hsf : sizeField (s ++ 13 :: 10 :: X) s.length = s := by
    unfold sizeField
    rw [List.take_left' rfl, findByte_eq_none 59 s hno59]
  rw [hsf, hparse]
  dsimp only
  have hdrop : (s ++ 13 :: 10 :: X).drop (s.length + 2) = X := by
    have he : s ++ 13 :: 10 :: X = (s ++ [13, 10]) ++ X := by simp
    rw [he, List.drop_left' (by simp)]
  rw [hdrop]

/-- Consuming one well-formed chunk body `d ++ "\r\n"` of announced size
`|d|`. -/
theorem chRun_chunk_step (d rest : List Nat) (n : Nat) (hd : d.length = n)
    (hn : n ≠ 0) :
    chRun .atChunk .parseChunkedChunk n (d ++ 13 :: 10 :: rest) =
      (.data d :: (chRun .top .parseChunkedSize 0 rest).1,
       (chRun .top .parseChunkedSize 0 rest).2) := by
  have hlt : ¬ n ≥ (d ++ 13 :: 10 :: rest).length := by
    simp only [List.length_append, List.length_cons]
    omega
  rw [chRun_atChunk, if_neg hlt]
  have htake : (d ++ 13 :: 10 :: rest).take n = d := List.take_left' hd
  have hdrop : (d ++ 13 :: 10 :: rest).drop n = 13 :: 10 :: rest :=
    List.drop_left' hd
  rw [htake, hdrop, chRun_atChunkEof, if_pos (by simp)]
  simp

/-- Running the machine over a whole well-formed chunked stream: every chunk
body is forwarded, EOF is fed after the terminator, and the pass returns
`(True, b'')`. -/
theorem chRun_wf :
    ∀ (S body : List Nat), ChunkedWF S body →
      ∃ ev, chRun .top .parseChunkedSize 0 S =
              (ev, .ok ⟨.parseChunkedTrailers, 0, [], true, some []⟩) ∧
            evOut ev = body := by
  intro S body hwf
  induction hwf with
  | last s hne hhex hparse =>
    refine ⟨[.eof], ?_, rfl⟩
    have hS : s ++ [13, 10] ++ [13, 10] = s ++ 13 :: 10 :: [13, 10] := by simp
    rw [hS, chRun_size_step s [13, 10] 0 0 hne hhex hparse, if_pos rfl]
    rw [chRun_atTrailers]
    have hfp : findPair 13 10 [13, 10] = some 0 := by simp [findPair]
    rw [hfp]
    simp
  | frame s d rest body n hne hhex hparse hn hd hwf ih =>
    obtain ⟨evI, hI, hbody⟩ := ih
    refine ⟨.data d :: evI, ?_, ?_⟩
    · have hS : s ++ [13, 10] ++ d ++ [13, 10] ++ rest =
          s ++ 13 :: 10 :: (d ++ 13 :: 10 :: rest) := by simp
      rw [hS, chRun_size_step s (d ++ 13 :: 10 :: rest) 0 n hne hhex hparse,
          if_neg hn, chRun_chunk_step d rest n hd hn, hI]
    · simp [evOut, hbody]

/-! ### Feeding a parser buffer-by-buffer -/

theorem feedAll_cons (st : PayState) (c : List Nat) (bs : List (List Nat))
    (ev : List SinkEvent) (st' : PayState) (fl : Bool) (lo : Option (List Nat))
    (h : feedData st c = (ev, .ok (st', fl, lo))) :
    feedAll st (c :: bs) = ev ++ feedAll st' bs := by
  conv_lhs => rw [feedAll.eq_def]
  dsimp only
  rw [h]

theorem feedAll_cons_err (st : PayState) (c : List Nat) (bs : List (List Nat))
    (ev : List SinkEvent) (e : List Nat)
    (h : feedData st c = (ev, .error e)) :
    feedAll st (c :: bs) = ev := by
  conv_lhs => rw [feedAll.eq_def]
  dsimp only
  rw [h]

theorem feedData_length_exact (st : PayState) (c : List Nat)
    (ht : st.type = .parseLength) (hge : st.length ≥ c.length)
    (h0 : st.length - c.length = 0) :
    feedData st c =
      ([.data c, .eof],
       .ok ({ st with length := st.length - c.length }, true, some [])) := by
  simp only [feedData, ht]
  rw [if_pos hge, if_pos h0]

theorem feedData_length_part (st : PayState) (c : List Nat)
    (ht : st.type = .parseLength) (hge : st.length ≥ c.length)
    (hpos : st.length - c.length ≠ 0) :
    feedData st c =
      ([.data c],
       .ok ({ st with length := st.length - c.length }, false, none)) := by
  simp only [feedData, ht]
  rw [if_pos hge, if_neg hpos]

theorem feedData_length_over (st : PayState) (c : List Nat)
    (ht : st.type = .parseLength) (hlt : ¬ st.length ≥ c.length) :
    feedData st c =
      ([.data (c.take st.length), .eof],
       .ok ({ st with length := 0 }, true, some (c.drop st.length))) := by
  simp only [feedData, ht]
  rw [if_neg hlt]

theorem feedData_untilEof_eq (st : PayState) (c : List Nat)
    (ht : st.type = .parseUntilEof) :
    feedData st c = ([.data c], .ok (st, false, none)) := by
  simp only [feedData, ht]

theorem feedData_chunked_eq (st : PayState) (c : List Nat)
    (ev1 : List SinkEvent) (o : ChOk) (ht : st.type = .parseChunked)
    (hA : chRun .top st.chunk st.chunkSize (st.chunkTail ++ c) = (ev1, .ok o)) :
    feedData st c =
      (ev1, .ok ({ st with chunk := o.phase, chunkSize := o.size,
                           chunkTail := o.tail }, o.fin, o.leftover)) := by
  simp only [feedData, ht, hA]

theorem feedData_chunked_err (st : PayState) (c : List Nat)
    (ev1 : List SinkEvent) (e : List Nat) (ht : st.type = .parseChunked)
    (hA : chRun .top st.chunk st.chunkSize (st.chunkTail ++ c) =
      (ev1, .error e)) :
    feedData st c = (ev1, .error e) := by
  simp only [feedData, ht, hA]

/-- Fixed-length mode forwards exactly the first `self._length` bytes of
whatever is fed, however it is sliced. -/
theorem feedAll_length :
    ∀ (bs : List (List Nat)) (st : PayState), st.type = .parseLength →
      evOut (feedAll st bs) = (bs.flatten).take st.length := by
  intro bs
  induction bs with
  | nil => intro st ht; simp [feedAll, evOut]
  | cons c rest ih =>
    intro st ht
    rcases le_or_lt c.length st.length with hge | hlt
    · rcases eq_or_ne (st.length - c.length) 0 with h0 | hpos
      · rw [feedAll_cons _ _ _ _ _ _ _ (feedData_length_exact st c ht hge h0)]
        rw [evOut_append, ih _ (by simp [ht])]
        simp only [List.flatten_cons, List.take_append_eq_append_take,
          evOut, List.take_of_length_le hge]
        simp
      · rw [feedAll_cons _ _ _ _ _ _ _ (feedData_length_part st c ht hge hpos)]
        rw [evOut_append, ih _ (by simp [ht])]
        simp only [List.flatten_cons, List.take_append_eq_append_take,
          evOut, List.take_of_length_le hge]
        simp
    · have hnge : ¬ st.length ≥ c.length := by omega
      rw [feedAll_cons _ _ _ _ _ _ _ (feedData_length_over st c ht hnge)]
      rw [evOut_append, ih _ (by simp [ht])]
      simp only [List.flatten_cons, List.take_append_eq_append_take, evOut]
      have h0 : st.length - c.length = 0 := by omega
      simp [h0]

/-- Read-to-EOF mode forwards everything fed. -/
theorem feedAll_untilEof :
    ∀ (bs : List (List Nat)) (st : PayState), st.type = .parseUntilEof →
      evOut (feedAll st bs) = bs.flatten := by
  intro bs
  induction bs with
  | nil => intro st ht; simp [feedAll, evOut]
  | cons c rest ih =>
    intro st ht
    rw [feedAll_cons _ _ _ _ _ _ _ (feedData_untilEof_eq st c ht)]
    rw [evOut_append, ih _ ht]
    simp [evOut]

/-- Feeding only empty buffers to a quiescent chunked parser with an empty
tail produces no output. -/
theorem feedAll_chunked_empty :
    ∀ (bs : List (List Nat)) (st : PayState), st.type = .parseChunked →
      st.chunkTail = [] → bs.flatten = [] →
      evOut (feedAll st bs) = [] := by
  intro bs
  induction bs with
  | nil => intro st _ _ _; rfl
  | cons c rest ih =>
    intro st ht htail hfl
    have hc : c = [] := (List.flatten_eq_nil_iff.1 hfl) c (List.mem_cons_self _ _)
    subst hc
    have hrest : rest.flatten = [] := by simpa using hfl
    have hrun : chRun .top st.chunk st.chunkSize (st.chunkTail ++ []) =
        ([], .ok ⟨st.chunk, st.chunkSize, [], false, none⟩) := by
      rw [List.append_nil, htail, chRun_top, if_pos rfl]
    rw [feedAll_cons _ _ _ _ _ _ _ (feedData_chunked_eq st [] [] _ ht hrun)]
    rw [evOut_append, ih _ (by simp [ht]) (by simp) hrest]
    rfl

/-- The chunked machine, fed a (suffix of a) well-formed stream in any
slicing, forwards exactly the decoded body. -/
theorem feedAll_chunked :
    ∀ (bs : List (List Nat)) (st : PayState) (body : List Nat),
      st.type = .parseChunked →
      chRun .top st.chunk st.chunkSize st.chunkTail =
        ([], .ok ⟨st.chunk, st.chunkSize, st.chunkTail, false, none⟩) →
      (chRun .top st.chunk st.chunkSize (st.chunkTail ++ bs.flatten)).2 =
        .ok ⟨.parseChunkedTrailers, 0, [], true, some []⟩ →
      evOut (chRun .top st.chunk st.chunkSize (st.chunkTail ++ bs.flatten)).1 =
        body →
      evOut (feedAll st bs) = body := by
  intro bs
  induction bs with
  | nil =>
    intro st body ht hstable hrun hbody
    rw [show ([] : List (List Nat)).flatten = [] from rfl, List.append_nil,
        hstable] at hrun
    simp at hrun
  | cons c rest ih =>
    intro st body ht hstable hrun hbody
    rw [List.flatten_cons, ← List.append_assoc] at hrun hbody
    rcases hA : chRun .top st.chunk st.chunkSize (st.chunkTail ++ c) with ⟨ev1, r1⟩
    match r1, hA with
    | .error e, hA =>
      have hcl := chRun_append_closed rest.flatten .top st.chunk st.chunkSize
        (st.chunkTail ++ c) ev1 (.error e) hA (fun o ho => by cases ho)
      rw [hcl] at hrun
      simp [closedExtend] at hrun
    | .ok o, hA =>
      rcases hfin : o.fin with hf | hf
      · -- the pass paused mid-message; resume on the tail plus the rest
        have hap := chRun_append rest.flatten .top st.chunk st.chunkSize
          (st.chunkTail ++ c) trivial ev1 o hA hfin
        have hst := chRun_blocked_stable .top st.chunk st.chunkSize
          (st.chunkTail ++ c) trivial ev1 o hA hfin
        rw [feedAll_cons _ _ _ _ _ _ _ (feedData_chunked_eq st c ev1 o ht hA)]
        rw [evOut_append]
        rw [hap.1] at hrun
        rw [hap.2] at hbody
        rw [ih _ _ (by simp [ht]) (by simpa using hst.2) (by simpa using hrun)
          rfl]
        rw [← hbody]
      · -- the pass finished the message; all later buffers must be empty
        have hcl := chRun_append_closed rest.flatten .top st.chunk st.chunkSize
          (st.chunkTail ++ c) ev1 (.ok o) hA
          (fun o' ho' => by injection ho' with he; rw [← he]; exact hfin)
        rw [hcl] at hrun hbody
        simp only [closedExtend] at hrun hbody
        simp only [Except.ok.injEq, ChOk.mk.injEq] at hrun
        obtain ⟨hph, hsz, htl, -, hlo⟩ := hrun
        rcases ho : o.leftover with _ | l
        · rw [ho] at hlo; simp at hlo
        · rw [ho] at hlo
          simp only [Option.map_some', Option.some.injEq] at hlo
          have hl : l = [] ∧ rest.flatten = [] := by
            constructor
            · cases l
              · rfl
              · simp at hlo
            · rcases List.append_eq_nil.1 hlo with ⟨-, h⟩
              exact h
          rw [feedAll_cons _ _ _ _ _ _ _ (feedData_chunked_eq st c ev1 o ht hA)]
          rw [evOut_append]
          rw [feedAll_chunked_empty rest _ (by simp [ht]) (by simp [htl])
            hl.2]
          simpa using hbody

/-! ### Initial parser states per framing mode -/

theorem initState_fixedLength (n : Nat) :
    (initState (.fixedLength n)).type = .parseLength ∧
    (initState (.fixedLength n)).length = n := by
  rcases eq_or_ne n 0 with rfl | hn <;> simp [initState, payloadInit, *]

theorem initState_chunked_eq :
    initState .chunked =
      { type := .parseChunked, length := 0, chunk := .parseChunkedSize,
        chunkSize := 0, chunkTail := [], done := false } := by
  simp [initState, payloadInit]

theorem initState_readToEof_eq :
    initState .readToEof =
      { type := .parseUntilEof, length := 0, chunk := .parseChunkedSize,
        chunkSize := 0, chunkTail := [], done := false } := by
  simp [initState, payloadInit]

/-- C5: for every well-formed body byte-stream `S` in a given framing mode
(fixed length, chunked, or read-to-EOF) and every way of splitting `S` into
a sequence of buffers, feeding the buffers successively to `feed_data` on a
fresh `HttpPayloadParser` forwards to the sink the same concatenated decoded
body bytes, without loss or duplication, as feeding `S` in a single call. -/
theorem c5_feed_slicing_invariance (mode : FrMode) (S body : List Nat)
    (bs : List (List Nat)) (hwf : WellFormed mode S body)
    (hfl : bs.flatten = S) :
    evOut (feedAll (initState mode) bs) = body ∧
    evOut (feedAll (initState mode) [S]) = body := by
  have main : ∀ (cs : List (List Nat)), cs.flatten = S →
      evOut (feedAll (initState mode) cs) = body := by
    intro cs hcs
    cases hwf with
    | fixedLength S =>
      have h := initState_fixedLength S.length
      rw [feedAll_length cs _ h.1, h.2, hcs, List.take_length]
    | chunked S body hch =>
      obtain ⟨ev, hev, hbody⟩ := chRun_wf S body hch
      rw [initState_chunked_eq]
      apply feedAll_chunked
      · rfl
      · rw [chRun_top, if_pos rfl]
      · show (chRun .top .parseChunkedSize 0 ([] ++ cs.flatten)).2 = _
        rw [List.nil_append, hcs, hev]
      · show evOut (chRun .top .parseChunkedSize 0 ([] ++ cs.flatten)).1 = _
        rw [List.nil_append, hcs, hev]
        exact hbody
    | readToEof S =>
      rw [feedAll_untilEof cs _ (by rw [initState_readToEof_eq]), hcs]
  exact ⟨main bs hfl, main [S] (by simp)⟩

/-- Witness for C5: the chunked stream `b"1\r\nA\r\n0\r\n\r\n"` fed one
byte at a time and fed whole both deliver the body `b"A"`. -/
theorem c5_witness :
    evOut (feedAll (initState .chunked)
        [[49], [13], [10], [65], [13], [10], [48], [13], [10], [13], [10]]) =
      [65] ∧
    evOut (feedAll (initState .chunked)
        [[49, 13, 10, 65, 13, 10, 48, 13, 10, 13, 10]]) = [65] := by
  have hwf : ChunkedWF [49, 13, 10, 65, 13, 10, 48, 13, 10, 13, 10] [65] := by
    have h := ChunkedWF.frame [49] [65] ([48] ++ [13, 10] ++ [13, 10]) [] 1
      (by decide) (by decide) (by decide) (by decide) (by decide)
      (ChunkedWF.last [48] (by decide) (by decide) (by decide))
    simpa using h
  exact c5_feed_slicing_invariance .chunked _ [65] _
    (WellFormed.chunked _ _ hwf) (by decide)

/-- C9: in chunked mode, when `feed_data` encounters a complete size line
(terminated by CRLF, chunk-extension after `;` stripped) whose size field is
not valid hexadecimal, it raises `TransferEncodingError` and, before
raising, sets that same exception on the payload sink via `set_exception`
(the `setExc` event carries the same argument as the raised error). -/
theorem c9_bad_chunk_size_sets_exception (st : PayState) (c : List Nat)
    (pos : Nat) (ht : st.type = .parseChunked)
    (hph : st.chunk = .parseChunkedSize)
    (hfp : findPair 13 10 (st.chunkTail ++ c) = some pos)
    (hbad : pyIntHex (sizeField (st.chunkTail ++ c) pos) = none) :
    feedData st c = ([.setExc ((st.chunkTail ++ c).take pos)],
                     .error ((st.chunkTail ++ c).take pos)) := by
  have hne : st.chunkTail ++ c ≠ [] := by
    intro h0
    rw [h0] at hfp
    simp [findPair] at hfp
  have hrun : chRun .top st.chunk st.chunkSize (st.chunkTail ++ c) =
      ([.setExc ((st.chunkTail ++ c).take pos)],
       .error ((st.chunkTail ++ c).take pos)) := by
    rw [hph, chRun_top, if_neg hne]
    dsimp only
    rw [chRun_atSize, hfp]
    dsimp only
    rw [hbad]
  exact feedData_chunked_err st c _ _ ht hrun

/-- Witness for C9: feeding `b"zz\r\n"` to a fresh chunked parser sets and
raises `TransferEncodingError(b"zz")`. -/
theorem c9_witness :
    feedData (initState .chunked) [122, 122, 13, 10] =
      ([.setExc [122, 122]], .error [122, 122]) := by
  have h := c9_bad_chunk_size_sets_exception (initState .chunked)
    [122, 122, 13, 10] 2 (by rw [initState_chunked_eq])
    (by rw [initState_chunked_eq]) (by rw [initState_chunked_eq]; decide)
    (by rw [initState_chunked_eq]; decide)
  rw [initState_chunked_eq] at h ⊢
  simpa using h

/-- C3 counterexample: in the fallthrough construction case
(`response_with_body=True`, not chunked, no length, `readall=False`, method
not in `{PUT, POST}`) the parser is constructed with framing `PARSE_NONE`
but `done=False` and no EOF is signalled, contradicting the claimed
`framing=none ⇒ done=true` (the claim asserts `done=true` and EOF fed
here). -/
theorem c3_counterexample :
    (payloadInit none false none (some "GET") false true).st.type =
      .parseNone ∧
    (payloadInit none false none (some "GET") false true).st.done = false ∧
    (payloadInit none false none (some "GET") false true).events = [] := by
  refine ⟨by decide, by decide, by decide⟩

/-- C3 amended: whenever construction selects framing `PARSE_NONE` *and*
sets `done`, EOF has been signalled to the sink; but in the fallthrough case
(`response_with_body=True`, not chunked, no length, `readall` false or code
204, method not in `{PUT, POST}`) the parser has framing `PARSE_NONE` with
`done=False` and no EOF signalled. -/
theorem c3_payload_init_amended (len : Option Nat) (chk : Bool)
    (code : Option Nat) (method : Option String) (readall : Bool)
    (rwb : Bool) :
    ((payloadInit len chk code method readall rwb).st.type = .parseNone →
      (payloadInit len chk code method readall rwb).st.done = true →
      SinkEvent.eof ∈ (payloadInit len chk code method readall rwb).events) ∧
    (rwb = true → chk = false → len = none →
      (readall = false ∨ code = some 204) →
      method ≠ some "PUT" → method ≠ some "POST" →
      (payloadInit len chk code method readall rwb).st.type = .parseNone ∧
      (payloadInit len chk code method readall rwb).st.done = false ∧
      (payloadInit len chk code method readall rwb).events = []) := by
  constructor
  · unfold payloadInit
    repeat' split
    all_goals intro h1 h2
    all_goals simp_all
  · intro h1 h2 h3 h4 h5 h6
    unfold payloadInit
    repeat' split
    all_goals simp_all

/-- Witness for C3 (amended): concrete instances of both conjuncts. -/
theorem c3_amended_witness :
    ((payloadInit none false none (some "GET") false true).st.done = false ∧
     (payloadInit none false none (some "GET") false true).st.type =
       .parseNone) ∧
    SinkEvent.eof ∈ (payloadInit none false none none false false).events := by
  constructor
  · have h := (c3_payload_init_amended none false none (some "GET") false
      true).2 rfl rfl rfl (Or.inl rfl) (by decide) (by decide)
    exact ⟨h.2.1, h.1⟩
  · exact (c3_payload_init_amended none false none none false false).1
      (by decide) (by decide)

/-- C7: evaluating the code at the failing input.  A writer with buffered
data and no transport parks a drain waiter (`drainPark` returns `true`);
the subsequent `set_transport` call then raises `AttributeError` while
reading the never-assigned attribute `self._drain_maiter` (line 487, a typo
for `_drain_waiter`), so the parked waiter is never completed.  The claim
says the waiter is completed without raising. -/
theorem c7_set_transport_attribute_error :
    (drainPark (bufferData mkPayloadWriter [120]) 0).2 = true ∧
    (drainPark (bufferData mkPayloadWriter [120]) 0).1.drainWaiter = some 0 ∧
    setTransport (drainPark (bufferData mkPayloadWriter [120]) 0).1 7 =
      .error .attributeError := by
  refine ⟨by decide, by decide, by rfl⟩

/-- C2: evaluating the code at the failing input.  In chunked mode without
compression, `write_eof(b"hello")` emits the frame followed by *two* copies
of the chunked terminator `0\r\n\r\n` (line 583 already appends one and
line 586 unconditionally appends another), not the single terminator the
claim describes; the empty-chunk case does emit a single terminator. -/
theorem c2_write_eof_double_terminator :
    writeEofWire true [104, 101, 108, 108, 111] =
      ([53, 13, 10] ++ [104, 101, 108, 108, 111] ++ [13, 10] ++
        [48, 13, 10, 13, 10]) ++ [48, 13, 10, 13, 10] ∧
    writeEofWire true [104, 101, 108, 108, 111] ≠
      [53, 13, 10] ++ [104, 101, 108, 108, 111] ++ [13, 10] ++
        [48, 13, 10, 13, 10] ∧
    writeEofWire true [] = [48, 13, 10, 13, 10] := by
  refine ⟨?_, ?_, ?_⟩ <;>
    simp [writeEofWire, natHexBytes, natHexBytesAux, hexDigitByte]

/-- C6 counterexample: the cumulative payload of a writer with `length=3`
*can* exceed 3 bytes, because `write_eof`'s chunk bypasses the truncation:
`write_eof(b"hello")` emits all 5 bytes. -/
theorem c6_counterexample :
    ¬ ∀ (L : Nat) (ops : List WOp),
        (emittedPayload (some L) ops).length ≤ L := by
  intro hall
  have h := hall 3 [.writeEof [104, 101, 108, 108, 111]]
  simp [emittedPayload] at h

/-- C6 amended: the cumulative payload emitted by `write` calls alone never
exceeds the configured `length`; excess is silently truncated.  (The chunk
passed to `write_eof` is not subject to the limit.) -/
theorem c6_write_truncation_amended (L : Nat) (ops : List WOp)
    (hw : ∀ op ∈ ops, ∃ c, op = WOp.write c) :
    (emittedPayload (some L) ops).length ≤ L := by
  induction ops generalizing L with
  | nil => simp [emittedPayload]
  | cons op rest ih =>
    obtain ⟨c, rfl⟩ := hw op (List.mem_cons_self _ _)
    have hrest : ∀ op ∈ rest, ∃ c, op = WOp.write c :=
      fun op ho => hw op (.tail _ ho)
    unfold emittedPayload pyWriteTrunc
    dsimp only
    split
    · simp only [List.length_append]
      have := ih (L - c.length) hrest
      omega
    · simp only [List.length_append, List.length_take]
      have := ih 0 hrest
      omega

/-- Witness for C6 (amended): `length=3`; `write(b"hello")` then
`write(b"more")` emit 3 payload bytes in total. -/
theorem c6_amended_witness :
    (∀ op ∈ [WOp.write [104, 101, 108, 108, 111], WOp.write [109, 111, 114, 101]],
      ∃ c, op = WOp.write c) ∧
    (emittedPayload (some 3)
      [WOp.write [104, 101, 108, 108, 111], WOp.write [109, 111, 114, 101]]).length ≤ 3 := by
  have hw : ∀ op ∈ [WOp.write [104, 101, 108, 108, 111],
      WOp.write [109, 111, 114, 101]], ∃ c, op = WOp.write c := by
    intro op ho
    rcases List.mem_cons.1 ho with rfl | ho
    · exact ⟨_, rfl⟩
    rcases List.mem_cons.1 ho with rfl | ho
    · exact ⟨_, rfl⟩
    · cases ho
  exact ⟨hw, c6_write_truncation_amended 3 _ hw⟩

/-- `add_header` never sets the explicit keepalive flag to `True` unless the
header is a `Connection` header whose value triggers the keep-alive arm, and
it never changes the version. -/
theorem addHeaderRest_keepalive_version (m : HMsg) (n value : String)
    (m' : HMsg) (h : addHeaderRest m n value = .ok m')
    (hns : ¬ (ciEq n "Connection" = true ∧
      ¬ isSubstr "upgrade" (lowerStr value) = true ∧
      ¬ isSubstr "close" (lowerStr value) = true ∧
      isSubstr "keep-alive" (lowerStr value) = true))
    (hk : m.keepalive ≠ some true) :
    m'.keepalive ≠ some true ∧ m'.version = m.version := by
  unfold addHeaderRest at h
  dsimp only at h
  repeat' split at h
  all_goals injection h with he
  all_goals subst he
  all_goals simp_all

theorem addHeader_keepalive_version (m : HMsg) (n v : String) (m' : HMsg)
    (h : addHeader m n v = .ok m') (hns : setsKeepaliveTrue n v = false)
    (hk : m.keepalive ≠ some true) :
    m'.keepalive ≠ some true ∧ m'.version = m.version := by
  have hns' : ¬ (ciEq n "Connection" = true ∧
      ¬ isSubstr "upgrade" (lowerStr (pyStripStr v)) = true ∧
      ¬ isSubstr "close" (lowerStr (pyStripStr v)) = true ∧
      isSubstr "keep-alive" (lowerStr (pyStripStr v)) = true) := by
    unfold setsKeepaliveTrue at hns
    simpa using hns
  unfold addHeader at h
  split at h
  · cases h
  · dsimp only at h
    split at h
    · split at h
      · have hres := addHeaderRest_keepalive_version _ _ _ _ h hns'
          (by simpa using hk)
        simpa using hres
      · cases h
    · exact addHeaderRest_keepalive_version _ _ _ _ h hns' hk

theorem addHeaders_keepalive_version :
    ∀ (hs : List (String × String)) (m m' : HMsg),
      (∀ p ∈ hs, setsKeepaliveTrue p.1 p.2 = false) →
      m.keepalive ≠ some true →
      addHeaders m hs = .ok m' →
      m'.keepalive ≠ some true ∧ m'.version = m.version := by
  intro hs
  induction hs with
  | nil =>
    intro m m' _ hk h
    injection h with he
    subst he
    exact ⟨hk, rfl⟩
  | cons p rest ih =>
    intro m m' hns hk h
    obtain ⟨n, v⟩ := p
    unfold addHeaders at h
    rcases hA : addHeader m n v with e | m1 <;> rw [hA] at h
    · cases h
    · have h1 := addHeader_keepalive_version m n v m1 hA
        (hns (n, v) (List.mem_cons_self _ _)) hk
      have h2 := ih m1 m' (fun p hp => hns p (.tail _ hp)) h1.1 h
      exact ⟨h2.1, h2.2.trans h1.2⟩

/-- C1 counterexample: on a `Request` with version `(0, 9) < V10`,
`add_header('Connection', 'keep-alive')` sets the explicit keepalive flag,
and `keep_alive()` then returns `True` (the explicit flag wins before the
version check at line 654), not `False` as claimed. -/
theorem c1_counterexample :
    (addHeader (mkRequest (0, 9)) "Connection" "keep-alive").map keepAliveFn =
      .ok true := by
  rfl

/-- C1 amended: for every `HttpMessage` with version `< V10`, `keep_alive()`
returns `False` regardless of which headers were added via `add_header`,
*provided* none of them was a `Connection` header whose value sets the
explicit keepalive flag to `True`; such a header makes the explicit flag
win instead. -/
theorem c1_keep_alive_amended (version : Nat × Nat)
    (hs : List (String × String)) (m' : HMsg)
    (hv : versionLt version httpVersion10 = true)
    (hns : ∀ p ∈ hs, setsKeepaliveTrue p.1 p.2 = false)
    (hok : addHeaders (mkRequest version) hs = .ok m') :
    keepAliveFn m' = false := by
  have h0 : (mkRequest version).keepalive ≠ some true := by
    simp [mkRequest, mkHttpMessage]
  have h := addHeaders_keepalive_version hs _ m' hns h0 hok
  have hver : m'.version = version := by
    rw [h.2]
    rfl
  rcases hka : m'.keepalive with _ | b
  · unfold keepAliveFn
    rw [hka]
    dsimp only
    rw [hver, if_pos hv]
  · cases b
    · unfold keepAliveFn
      rw [hka]
    · exact absurd hka h.1

/-- Witness for C1 (amended): version `(0, 9)`, one ordinary header. -/
theorem c1_amended_witness :
    versionLt (0, 9) httpVersion10 = true ∧
    ∃ m', addHeaders (mkRequest (0, 9)) [("X-Test", "1")] = .ok m' ∧
      keepAliveFn m' = false := by
  refine ⟨by decide, ?_⟩
  have hok : ∃ m', addHeaders (mkRequest (0, 9)) [("X-Test", "1")] = .ok m' :=
    ⟨_, rfl⟩
  obtain ⟨m', hm⟩ := hok
  refine ⟨m', hm, c1_keep_alive_amended (0, 9) _ m' (by decide) ?_ hm⟩
  intro p hp
  rcases List.mem_cons.1 hp with rfl | hp
  · rfl
  · cases hp

/-- C10: before `send_headers`, `add_header('Connection', v)` leaves the
outbound header map `self.headers` unchanged (it only updates the
upgrade/keepalive flags), and a `Connection` entry in the emitted header
block can be introduced only later, by `_add_default_headers` (which either
leaves the map alone or stores one `Connection` entry). -/
theorem c10_connection_header_frame (m : HMsg) (v : String)
    (hsent : m.headersSent = false) :
    (∃ m', addHeader m "Connection" v = .ok m' ∧
      m'.headers = m.headers ∧ m'.length = m.length ∧
      m'.hasChunkedHdr = m.hasChunkedHdr ∧ m'.websocket = m.websocket ∧
      m'.version = m.version ∧ m'.closing = m.closing ∧
      m'.headersSent = false) ∧
    ((addDefaultHeaders m).headers = m.headers ∨
      ∃ c, (addDefaultHeaders m).headers = setItemCI m.headers "Connection" c) := by
  constructor
  · unfold addHeader
    rw [if_neg (by simp [hsent])]
    dsimp only
    rw [if_neg (by decide : ¬ ciEq "Connection" "Content-Length" = true)]
    unfold addHeaderRest
    rw [if_neg (by decide : ¬ ciEq "Connection" "Transfer-Encoding" = true)]
    rw [if_pos (by decide : ciEq "Connection" "Connection" = true)]
    dsimp only
    repeat' split
    all_goals exact ⟨_, rfl, rfl, rfl, rfl, rfl, rfl, rfl, hsent⟩
  · unfold addDefaultHeaders
    dsimp only
    split
    · exact Or.inr ⟨_, rfl⟩
    · exact Or.inl rfl

/-- Witness for C10: a `Connection: close` header on a fresh HTTP/1.1
request leaves the outbound header map unchanged. -/
theorem c10_witness :
    ∃ m', addHeader (mkRequest (1, 1)) "Connection" "close" = .ok m' ∧
      m'.headers = (mkRequest (1, 1)).headers := by
  obtain ⟨⟨m', h1, h2, -⟩, -⟩ :=
    c10_connection_header_frame (mkRequest (1, 1)) "close" (by decide)
  exact ⟨m', h1, h2⟩

/-- C4: evaluating the code at the failing input.  On the claimed input
`[b"X-Multi: line1", b"\tline2", b""]` (header, tab-indented continuation,
empty terminator) the continuation loop fetches the empty terminator line
and evaluates `line[0]` on it (line 135), raising `IndexError`, so parsing
does not succeed — the claim says it succeeds with value
`b"line1\r\n\tline2"`.  Second conjunct: with a further non-continuation
header before the terminator the loop exits normally and the folded value
is exactly the claimed `b"line1\r\n\tline2"`, confirming the claim's value
computation but not its success on the given input. -/
theorem c4_continuation_terminator_index_error :
    parseHeaders 8190 [[], strB "X-Multi: line1", strB "\tline2", []] =
      .error .indexError ∧
    (parseHeaders 8190
        [[], strB "X-Multi: line1", strB "\tline2", strB "X-Next: v", []]).map
      (fun r => ciGetBytes r.headers (strB "X-Multi")) =
      .ok (some (strB "line1\r\n\tline2")) := by
  have e1 : strB "X-Multi: line1" =
      [88, 45, 77, 117, 108, 116, 105, 58, 32, 108, 105, 110, 101, 49] := rfl
  have e2 : strB "\tline2" = [9, 108, 105, 110, 101, 50] := rfl
  have e3 : strB "X-Next: v" = [88, 45, 78, 101, 120, 116, 58, 32, 118] := rfl
  have e4 : strB "X-Multi" = [88, 45, 77, 117, 108, 116, 105] := rfl
  have e5 : strB "line1\r\n\tline2" =
      [108, 105, 110, 101, 49, 13, 10, 9, 108, 105, 110, 101, 50] := rfl
  rw [e1, e2, e3, e4, e5]
  constructor
  · simp [parseHeaders, parseHdrLoop, contLoop, splitColonOnce, findByte,
      bupper, stripBy, lstripBy, isPyWs, hdrBadByte]
  · simp [parseHeaders, parseHdrLoop, contLoop, splitColonOnce, findByte,
      bupper, blower, stripBy, lstripBy, isPyWs, hdrBadByte, ciGetBytes,
      isSubB, List.intercalate, List.find?, Except.map, strB]

theorem natDecBytes_ne_nil (n : Nat) : natDecBytes n ≠ [] := by
  unfold natDecBytes
  split <;> simp

theorem natDecBytes_digits (n : Nat) :
    ∀ c ∈ natDecBytes n, 48 ≤ c ∧ c ≤ 57 := by
  induction n using Nat.strong_induction_on with
  | _ n ih =>
    unfold natDecBytes
    split
    · intro c hc
      simp at hc
      omega
    · intro c hc
      rw [List.mem_append] at hc
      rcases hc with hc | hc
      · exact ih (n / 10) (Nat.div_lt_self (by omega) (by omega)) c hc
      · simp at hc
        omega

theorem decDigits_natDecBytes (n : Nat) : decDigits (natDecBytes n) = true := by
  simp only [decDigits, List.all_eq_true, decide_eq_true_eq]
  exact natDecBytes_digits n

theorem decVal_append_singleton (a : List Nat) (b : Nat) :
    decVal (a ++ [b]) = decVal a * 10 + (b - 48) := by
  simp [decVal, List.foldl_append]

theorem decVal_natDecBytes (n : Nat) : decVal (natDecBytes n) = n := by
  induction n using Nat.strong_induction_on with
  | _ n ih =>
    unfold natDecBytes
    split
    · simp only [decVal, List.foldl_cons, List.foldl_nil]
      omega
    · rename_i h
      rw [decVal_append_singleton,
        ih (n / 10) (Nat.div_lt_self (by omega) (by omega))]
      omega

theorem pyIntDec_natDecBytes (n : Nat) : pyIntDec (natDecBytes n) = some n := by
  simp [pyIntDec, natDecBytes_ne_nil, decDigits_natDecBytes,
    decVal_natDecBytes]

theorem findByte_append_cons (t : Nat) (s u : List Nat)
    (h : ∀ c ∈ s, c ≠ t) : findByte t (s ++ t :: u) = some s.length := by
  induction s with
  | nil => simp [findByte]
  | cons a r ih =>
    have ha := h a (List.mem_cons_self _ _)
    simp [findByte, ha, ih fun c hc => h c (List.mem_cons_of_mem _ hc)]

theorem splitDotOnce_digits (X Y : List Nat)
    (hX : ∀ c ∈ X, 48 ≤ c ∧ c ≤ 57) :
    splitDotOnce (X ++ 46 :: Y) = some (X, Y) := by
  have h46 : ∀ c ∈ X, c ≠ 46 := fun c hc => by have := hX c hc; omega
  have htk : (X ++ 46 :: Y).take X.length = X := List.take_left X (46 :: Y)
  have hdr : (X ++ 46 :: Y).drop (X.length + 1) = Y := by
    rw [show X ++ 46 :: Y = (X ++ [46]) ++ Y by simp]
    exact List.drop_left' (by simp)
  rw [splitDotOnce, findByte_append_cons _ _ _ h46]
  dsimp only
  rw [htk, hdr]

theorem parseHeaders_statusOnly (maxFS : Nat) (l0 : List Nat) :
    parseHeaders maxFS [l0, []] =
      .ok { headers := [], closeConn := none, encoding := none,
            upgrade := false, chunked := false } := by
  simp [parseHeaders, parseHdrLoop, ciGetBytes, List.find?]

/-- C8 counterexample: the status line `b"GET / HTTP/12.3"` is accepted by
`parse_message` (the regex `HTTP/(\d+)\.(\d+)` matches multi-digit runs and
`int()` converts them), producing version `(12, 3)`, which violates the
claimed invariant `major < 10 ∧ minor < 10`. -/
theorem c8_counterexample :
    (requestParseMessage [strB "GET / HTTP/12.3", []]).map
      (fun m => m.version) = .ok (12, 3) ∧
    ¬((12 : Nat) < 10 ∧ (3 : Nat) < 10) := by
  refine ⟨?_, by decide⟩
  have hsp : splitWs2 (strB "GET / HTTP/12.3") =
      [[71, 69, 84], [47], [72, 84, 84, 80, 47, 49, 50, 46, 51]] := rfl
  have hup : bupper [71, 69, 84] = [71, 69, 84] := rfl
  have hmo : methOk [71, 69, 84] = true := rfl
  have htk5 : List.take 5 [72, 84, 84, 80, 47, 49, 50, 46, 51] =
      strB "HTTP/" := rfl
  have hd5 : List.drop 5 [72, 84, 84, 80, 47, 49, 50, 46, 51] =
      [49, 50, 46, 51] := rfl
  have hsd : splitDotOnce [49, 50, 46, 51] = some ([49, 50], [51]) := rfl
  have hi1 : pyIntDec [49, 50] = some 12 := rfl
  have hi2 : pyIntDec [51] = some 3 := rfl
  have hhdr := parseHeaders_statusOnly 8190 (strB "GET / HTTP/12.3")
  simp [requestParseMessage, hsp, hup, hmo, htk5, hd5, hsd, hi1, hi2, hhdr,
    Except.map, versionLe, versionLt, httpVersion10]

/-- C8 amended: the parsed version components are *not* bounded by 10.  For
every pair of naturals `(a, b)`, the status line
`b"GET / HTTP/" ++ str(a) ++ b"." ++ str(b)` (decimal digit strings of
arbitrary length) is accepted by `HttpRequestParser.parse_message` and
yields version exactly `(a, b)`; the claimed invariant
`major < 10 ∧ minor < 10` holds only for single-digit inputs. -/
theorem c8_version_components_unbounded (a b : Nat) :
    ∃ m, requestParseMessage
        [strB "GET / HTTP/" ++ natDecBytes a ++ 46 :: natDecBytes b, []] =
        .ok m ∧ m.version = (a, b) := by
  refine ⟨{ method := [71, 69, 84], path := [47], version := (a, b),
            headers := [], shouldClose := versionLe (a, b) httpVersion10,
            encoding := none, upgrade := false, chunked := false }, ?_, rfl⟩
  have hP : strB "GET / HTTP/" =
      [71, 69, 84, 32, 47, 32, 72, 84, 84, 80, 47] := rfl
  have hH : strB "HTTP/" = [72, 84, 84, 80, 47] := rfl
  have htk : ∀ Z : List Nat,
      List.take 5 (72 :: 84 :: 84 :: 80 :: 47 :: Z) = [72, 84, 84, 80, 47] :=
    fun _ => rfl
  have hdr5 : ∀ Z : List Nat,
      List.drop 5 (72 :: 84 :: 84 :: 80 :: 47 :: Z) = Z := fun _ => rfl
  have hsd : splitDotOnce (natDecBytes a ++ 46 :: natDecBytes b) =
      some (natDecBytes a, natDecBytes b) :=
    splitDotOnce_digits _ _ (natDecBytes_digits a)
  have hsplit : splitWs2 (71 :: 69 :: 84 :: 32 :: 47 :: 32 :: 72 :: 84 ::
      84 :: 80 :: 47 :: (natDecBytes a ++ 46 :: natDecBytes b)) =
      [[71, 69, 84], [47],
       72 :: 84 :: 84 :: 80 :: 47 :: (natDecBytes a ++ 46 :: natDecBytes b)]
      := by
    simp [splitWs2, lstripBy, takeNonWs, isPyWs]
  have hhdr := parseHeaders_statusOnly 8190
    (71 :: 69 :: 84 :: 32 :: 47 :: 32 :: 72 :: 84 :: 84 :: 80 :: 47 ::
      (natDecBytes a ++ 46 :: natDecBytes b))
  rw [hP]
  simp [requestParseMessage, hsplit, hhdr, bupper, methOk, htk, hdr5, hH,
    hsd, pyIntDec_natDecBytes]

end AiohttpProtocol
